import Mathlib

/-!
Verification of the docbot command-specification/parsing engine.

This file gives a shallow embedding, in Lean 4, of the runtime engine that
the docbot crates implement: the identifier trie and its generated lexer
(src/docbot-derive/trie.rs, src/docbot-derive/bits/id.rs), the arity-driven
argument parser generated per command (src/docbot-derive/bits/parse.rs), the
command-path and help models (src/docbot/lib.rs, src/docbot-derive/bits/path.rs,
src/docbot-derive/bits/help.rs), the usage-grammar and doc-block parsers
(src/docbot-derive/docs.rs), and the fuzzy suggestion helper
(src/docbot/did_you_mean.rs).

Modelling conventions:
- machine strings are Lean String values; Rust str::to_lowercase is modelled
  as a character-wise Char.toLower (the identifiers involved are ASCII);
- fallible Rust code returning Result is modelled with Except; a Rust panic
  (todo! in generated code) is modelled as an Option returning none;
- HashMap child tables of the trie are determinised to association lists in
  insertion order; iteration order of a HashMap is unspecified in Rust, so
  order-sensitive statements about candidate lists are stated up to
  permutation where the source order came from a HashMap;
- string conversion of argument tokens (str::parse::<T>) is an opaque,
  caller-supplied function, as the engine itself treats it opaquely;
  its error value is modelled as a String.
-/

namespace Docbot

/-- Identifies an argument to a command (docbot/lib.rs, struct ArgumentName). -/
structure ArgumentName where
  cmd : String
  arg : String
deriving DecidableEq, Repr

/-- Error type for failures when parsing a command ID
(docbot/lib.rs, enum IdParseError). -/
inductive IdParseError where
  | noMatch (given : String) (available : List String)
  | ambiguous (candidates : List String) (given : String)
deriving DecidableEq, Repr

/-- Error type for failures when parsing a command path
(docbot/lib.rs, enum PathParseError). Note that the enum has exactly these
three variants; there is no NoInput variant. -/
inductive PathParseError where
  | incomplete (available : List String)
  | badId (e : IdParseError)
  | trailing (extra : String)
deriving DecidableEq, Repr

/-- Error type for failures when parsing a command
(docbot/lib.rs, enum CommandParseError). The anyhow cause carried by
BadConvert is modelled as a String. -/
inductive CommandParseError where
  | noInput
  | badId (e : IdParseError)
  | missingRequired (a : ArgumentName)
  | badConvert (a : ArgumentName) (cause : String)
  | trailing (cmd : String) (extra : String)
  | subcommand (cmd : String) (inner : CommandParseError)
deriving DecidableEq, Repr

/-- Rest-argument declaration of a usage line (docbot-derive/docs.rs, enum
RestArg). -/
inductive RestArg where
  | none
  | optional (name : String)
  | required (name : String)
deriving DecidableEq, Repr

/-- The fields of docbot-derive/docs.rs struct CommandUsage that the runtime
engine consumes: identifier list (canonical name first), required, optional
and rest argument names, and the short description. -/
structure UsageModel where
  ids : List String
  required : List String
  optional : List String
  rest : RestArg
  desc : String
deriving DecidableEq, Repr

/-- Rust str::to_lowercase, modelled character-wise (ASCII fragment). -/
def lowercase (s : String) : String :=
  ⟨s.data.map Char.toLower⟩

/-- The effect of Iterator::fuse on a single-pass iterator modelled as a
list of answers to successive next() calls: every token before the first
None is yielded, everything after the first None is never observed.
Command::parse (docbot-derive/bits/parse.rs, emit) calls .fuse() on its
input before reading any token. -/
def fuse : List (Option String) → List String
  | [] => []
  | Option.none :: _ => []
  | Option.some t :: rest => t :: fuse rest

/-! ## The identifier trie (docbot-derive/trie.rs)

TrieParts is the build-time structure: an optional payload for the node
(present exactly when some inserted identifier ends here) and a child table.
The Rust child table is a HashMap 〚char, TrieNodeParts〛; it is determinised
here as an association list in insertion order.  Payload indices into the
payloads array are replaced by the (identifier, payload) entry itself, which
is what the generated lexer ultimately embeds. -/

mutual
inductive TrieParts (T : Type) where
  | mk (payload : Option (String × T)) (children : Children T)
deriving DecidableEq
inductive Children (T : Type) where
  | nil
  | cons (c : Char) (t : TrieParts T) (rest : Children T)
deriving DecidableEq
end

namespace Trie

variable {T : Type}

/-- The node payload. -/
def payloadOf : TrieParts T → Option (String × T)
  | .mk p _ => p

/-- The child table. -/
def childrenOf : TrieParts T → Children T
  | .mk _ cs => cs

/-- Child lookup, as HashMap::entry finding an occupied entry. -/
def findChild : Children T → Char → Option (TrieParts T)
  | .nil, _ => Option.none
  | .cons c' t rest, c => if c' = c then Option.some t else findChild rest c

/-- Child update: replace the subtree at an existing key, or append a new
entry (HashMap::entry, Occupied/Vacant; a vacant insert appears at the end
in the insertion-order determinisation). -/
def replaceChild : Children T → Char → TrieParts T → Children T
  | .nil, c, t => .cons c t .nil
  | .cons c' t' rest, c, t =>
    if c' = c then .cons c' t rest else .cons c' t' (replaceChild rest c t)

/-- Inserting a payload into a fresh default subtree always succeeds and
builds a single chain (trie.rs, insert_payload recursing through vacant
entries of TrieNodeParts::default()). -/
def chainOf (e : String × T) : List Char → TrieParts T
  | [] => .mk (Option.some e) .nil
  | c :: cs => .mk Option.none (.cons c (chainOf e cs) .nil)

/-- trie.rs, fn insert_payload: walk the path, creating vacant children as
needed; a node already holding a payload at the end of the path is the
build-time duplicate-identifier error. -/
def insertPayload : TrieParts T → (String × T) → List Char → Except String (TrieParts T)
  | .mk p cs, e, [] =>
    match p with
    | Option.none => .ok (.mk (Option.some e) cs)
    | Option.some _ => .error "multiple entries for identifier"
  | .mk p cs, e, c :: rest =>
    match findChild cs c with
    | Option.none => .ok (.mk p (replaceChild cs c (chainOf e rest)))
    | Option.some child =>
      (insertPayload child e rest).map fun child' => .mk p (replaceChild cs c child')

/-- trie.rs, Trie::new: fold the entries into an empty root.  Each entry is
a pair of the (already lowercased) identifier string and its payload. -/
def build (entries : List (String × T)) : Except String (TrieParts T) :=
  entries.foldlM (fun root e => insertPayload root e e.1.data) (.mk Option.none .nil)

mutual
/-- The candidate payload entries the generated lexer sees at a node.  This
composes trie.rs From〚TrieNodeParts〛 for TrieNode (a node with its own
payload keeps only that payload; otherwise the children payload lists are
concatenated) with TrieNodeRef::payloads. -/
def cands : TrieParts T → List (String × T)
  | .mk (Option.some e) _ => [e]
  | .mk Option.none cs => candsL cs
/-- Candidate payload entries of a child list, concatenated in order. -/
def candsL : Children T → List (String × T)
  | .nil => []
  | .cons _ t rest => cands t ++ candsL rest
end

mutual
/-- All (path, entry) pairs stored in a subtree; the specification-side
denotation of the trie used in correctness lemmas. -/
def keys : TrieParts T → List (List Char × (String × T))
  | .mk p cs =>
    (match p with
     | Option.some e => [([], e)]
     | Option.none => []) ++ keysL cs
/-- The (path, entry) pairs of a child list. -/
def keysL : Children T → List (List Char × (String × T))
  | .nil => []
  | .cons c t rest => (keys t).map (fun ke => (c :: ke.1, ke.2)) ++ keysL rest
end

/-- Descend along a character path (the generated lexer follows one child
edge per input character). -/
def descend : TrieParts T → List Char → Option (TrieParts T)
  | t, [] => Option.some t
  | t, c :: cs =>
    match findChild (childrenOf t) c with
    | Option.none => Option.none
    | Option.some child => descend child cs

/-- docbot-derive/bits/id.rs, fn parse_resolve_ambiguous: an ambiguous node
resolves exactly when every candidate payload equals the first one. -/
def resolveAmbiguous [DecidableEq T] (values : List (String × T)) : Option T :=
  match values with
  | [] => Option.none
  | (_, first) :: rest =>
    if rest.all (fun e => e.2 = first) then Option.some first else Option.none

/-- The lexer emitted by trie.rs TrieNodeRef::to_lexer with the callbacks of
docbot-derive/bits/id.rs emit: consume the lowercased input character by
character; at the end of input inspect the node candidates (none: NoMatch;
one: success; several: resolve or Ambiguous over the candidate names); a
character without a matching child is NoMatch.  orig is the original input
string and allNames the CommandId::names() list, both embedded in errors. -/
def lexNode [DecidableEq T] (orig : String) (allNames : List String) :
    TrieParts T → List Char → Except IdParseError T
  | t, [] =>
    match cands t with
    | [] => .error (.noMatch orig allNames)
    | [(_, p)] => .ok p
    | ps =>
      match resolveAmbiguous ps with
      | Option.some r => .ok r
      | Option.none => .error (.ambiguous (ps.map (fun e => e.1)) orig)
  | t, c :: cs =>
    match findChild (childrenOf t) c with
    | Option.none => .error (.noMatch orig allNames)
    | Option.some child => lexNode orig allNames child cs

/-- The candidates the lexer would inspect after consuming s, if s reaches a
node at all. -/
def candidatesAt (t : TrieParts T) (s : List Char) : List (String × T) :=
  match descend t s with
  | Option.none => []
  | Option.some t' => cands t'

/-- Entries whose identifier extends a consumed input, i.e. has it as a
prefix: the payloads reachable from the input position in the trie. -/
def extending (entries : List (String × T)) (s : List Char) : List (String × T) :=
  entries.filter (fun e => s.isPrefixOf e.1.data)

/-- Strip a prefix from every key that has it, dropping the others: the
key set visible below the node the prefix reaches. -/
def stripPre (s : List Char) : List (List Char × (String × T)) → List (List Char × (String × T))
  | [] => []
  | ke :: rest =>
    if s.isPrefixOf ke.1 then (ke.1.drop s.length, ke.2) :: stripPre s rest
    else stripPre s rest

/-- Whether a child table holds an edge for a character. -/
def hasChar : Children T → Char → Bool
  | .nil, _ => false
  | .cons c' _ rest, c => c' = c || hasChar rest c

mutual
/-- Structural well-formedness maintained by insertion: every child table
has pairwise-distinct edge characters (the HashMap key-uniqueness that the
association-list determinisation must preserve). -/
def wfP : TrieParts T → Bool
  | .mk _ cs => nodupChars cs && wfC cs
/-- Pairwise-distinct edge characters of one table, recursively. -/
def nodupChars : Children T → Bool
  | .nil => true
  | .cons c _ rest => !hasChar rest c && nodupChars rest
/-- Well-formedness of every subtree of a table. -/
def wfC : Children T → Bool
  | .nil => true
  | .cons _ t rest => wfP t && wfC rest
end

end Trie

/-! ## Command sets and the generated FromStr lexer -/

/-- One command of a command set, as the derive macro sees it after doc
parsing: its usage model and whether its rest field delegates to a nested
subcommand parser (FieldOpts/CommandOpts subcommand flag). -/
structure CmdSpec where
  usage : UsageModel
  subcommand : Bool
deriving DecidableEq, Repr

/-- A command set: the enum case of docbot-derive, one CmdSpec per variant in
declaration order.  The trie payload for a variant is its index (standing
for the variant identifier, which is what the generated code embeds; two
variant identifiers are equal exactly when the indices are). -/
structure SetSpec where
  cmds : List CmdSpec
deriving DecidableEq, Repr

namespace SetSpec

/-- The lowercased (identifier, variant) pairs fed to Trie::new
(docbot-derive/inputs/command.rs, Commands::new). -/
def entries (set : SetSpec) : List (String × Nat) :=
  (set.cmds.enum.map fun ci => ci.2.usage.ids.map fun i => (lowercase i, ci.1)).flatten

/-- CommandId::names(): every identifier of every command, in declaration
order, as written (docbot-derive/bits/id.rs, emit). -/
def names (set : SetSpec) : List String :=
  (set.cmds.map fun c => c.usage.ids).flatten

/-- The identifier trie of the set, built once at derive time. -/
def buildTrie (set : SetSpec) : Except String (TrieParts Nat) :=
  Trie.build set.entries

/-- Total access to the k-th command (parseId only ever produces in-range
indices; headD totalises the lookup). -/
def getCmd (set : SetSpec) (k : Nat) : CmdSpec :=
  (set.cmds.drop k).headD ⟨⟨[], [], [], RestArg.none, ""⟩, false⟩

/-- CommandId::to_str / Display: the canonical name of a variant is the
first identifier of its usage line (usage.ids is non-empty whenever the
usage grammar accepted the line; headD totalises the array access ids〚0〛). -/
def canonical (set : SetSpec) (k : Nat) : String :=
  (set.getCmd k).usage.ids.headD ""

/-- The generated FromStr for the identifier type: lowercase the input and
run the trie lexer over its characters (docbot-derive/bits/id.rs, emit). -/
def parseId (set : SetSpec) (root : TrieParts Nat) (s : String) : Except IdParseError Nat :=
  Trie.lexNode s set.names root (lowercase s).data

end SetSpec

/-! ## The arity engine (docbot-derive/bits/parse.rs)

The derive macro generates, per command, a straight-line constructor that
pops and converts tokens field by field.  The embedding interprets the field
list of a usage model directly.  Token conversion (str::parse for the field
type) is a caller-supplied function cv, indexed by field position; its error
becomes the cause of BadConvert.  A subcommand rest field delegates to a
caller-supplied nested parser, modelling ::docbot::Command::parse of the
nested type. -/

/-- Field modes, docbot-derive/bits/parse.rs enum FieldMode. -/
inductive FieldMode where
  | required
  | optional
  | restRequired
  | restOptional
deriving DecidableEq, Repr

/-- docbot-derive/bits/parse.rs fn field_info: the field list of a command in
declared order: required args, then optional args, then the rest arg. -/
def fieldInfos (u : UsageModel) : List (FieldMode × String) :=
  u.required.map (fun n => (FieldMode.required, n)) ++
    u.optional.map (fun n => (FieldMode.optional, n)) ++
    (match u.rest with
     | RestArg.none => []
     | RestArg.optional n => [(FieldMode.restOptional, n)]
     | RestArg.required n => [(FieldMode.restRequired, n)])

/-- The value stored in one constructed field: a required argument, an
optional argument, a collected rest sequence, or a parsed subcommand. -/
inductive FieldVal (V : Type) where
  | one (v : V)
  | opt (v : Option V)
  | rest (vs : List V)
  | sub (v : V)
deriving DecidableEq, Repr

/-- Convert every remaining token, stopping at the first conversion failure,
which becomes BadConvert for the rest argument (parse.rs fn collect_rest,
non-subcommand branch: iter.map(parse).collect::〚Result〛). -/
def convertAll {V : Type} (a : ArgumentName) (cv : String → Except String V) :
    List String → Except CommandParseError (List V)
  | [] => .ok []
  | t :: ts =>
    match cv t with
    | .error e => .error (.badConvert a e)
    | .ok v => (convertAll a cv ts).map (fun vs => v :: vs)

/-- parse.rs fn collect_rest: a subcommand rest field hands the whole
remaining stream to the nested parser (wrapping errors in Subcommand with
the outer canonical name); otherwise every token is converted. -/
def collectRest {V : Type} (cmdName : String) (argName : String) (subFlag : Bool)
    (subParse : List String → Except CommandParseError V)
    (cv : String → Except String V) (toks : List String) :
    Except CommandParseError (FieldVal V) :=
  if subFlag then
    match subParse toks with
    | .error e => .error (.subcommand cmdName e)
    | .ok v => .ok (.sub v)
  else
    (convertAll ⟨cmdName, argName⟩ cv toks).map FieldVal.rest

/-- The field-by-field constructor body of parse.rs fn ctor_fields: process
the declared fields in order against the remaining fused token stream,
returning the constructed field values and the tokens left over.  cv is the
per-field token converter (indexed by field position), subFlag/subParse the
subcommand delegation of the rest field. -/
def runFields {V : Type} (cmdName : String) (cv : Nat → String → Except String V)
    (subFlag : Bool) (subParse : List String → Except CommandParseError V) :
    List (FieldMode × String) → Nat → List String →
    Except CommandParseError (List (FieldVal V) × List String)
  | [], _, toks => .ok ([], toks)
  | (m, name) :: fs, i, toks =>
    match m with
    | .required =>
      match toks with
      | [] => .error (.missingRequired ⟨cmdName, name⟩)
      | t :: ts =>
        match cv i t with
        | .error e => .error (.badConvert ⟨cmdName, name⟩ e)
        | .ok v =>
          (runFields cmdName cv subFlag subParse fs (i + 1) ts).map
            (fun vr => (.one v :: vr.1, vr.2))
    | .optional =>
      match toks with
      | [] =>
        (runFields cmdName cv subFlag subParse fs (i + 1) []).map
          (fun vr => (.opt Option.none :: vr.1, vr.2))
      | t :: ts =>
        match cv i t with
        | .error e => .error (.badConvert ⟨cmdName, name⟩ e)
        | .ok v =>
          (runFields cmdName cv subFlag subParse fs (i + 1) ts).map
            (fun vr => (.opt (Option.some v) :: vr.1, vr.2))
    | .restRequired =>
      match toks with
      | [] => .error (.missingRequired ⟨cmdName, name⟩)
      | _ :: _ =>
        match collectRest cmdName name subFlag subParse (cv i) toks with
        | .error e => .error e
        | .ok v =>
          (runFields cmdName cv subFlag subParse fs (i + 1) []).map
            (fun vr => (v :: vr.1, vr.2))
    | .restOptional =>
      match collectRest cmdName name subFlag subParse (cv i) toks with
      | .error e => .error e
      | .ok v =>
        (runFields cmdName cv subFlag subParse fs (i + 1) []).map
          (fun vr => (v :: vr.1, vr.2))

namespace SetSpec

/-- The constructor for one resolved command: run the fields, then, when the
usage declares no rest field, report any remaining token as Trailing with
the canonical command name (parse.rs fn ctor_fields, trailing check). -/
def parseCmd {V : Type} (set : SetSpec) (k : Nat)
    (cv : Nat → Nat → String → Except String V)
    (sub : Nat → List String → Except CommandParseError V)
    (toks : List String) : Except CommandParseError (Nat × List (FieldVal V)) :=
  let c := set.getCmd k
  let cmdName := set.canonical k
  match runFields cmdName (cv k) c.subcommand (sub k) (fieldInfos c.usage) 0 toks with
  | .error e => .error e
  | .ok (vals, rem) =>
    match c.usage.rest with
    | RestArg.none =>
      match rem with
      | t :: _ => .error (.trailing cmdName t)
      | [] => .ok (k, vals)
    | _ => .ok (k, vals)

/-- The generated Command::parse (parse.rs fn emit): fuse the input
iterator, pop the head token (absent: NoInput), resolve it through the
generated FromStr identifier lexer (failure: BadId), then run the resolved
command's constructor on the remaining stream. -/
def parse {V : Type} (set : SetSpec) (root : TrieParts Nat)
    (cv : Nat → Nat → String → Except String V)
    (sub : Nat → List String → Except CommandParseError V)
    (input : List (Option String)) : Except CommandParseError (Nat × List (FieldVal V)) :=
  match fuse input with
  | [] => .error .noInput
  | t :: ts =>
    match set.parseId root t with
    | .error e => .error (.badId e)
    | .ok k => set.parseCmd k cv sub ts

end SetSpec

/-! ## The path model (docbot/lib.rs trait CommandPath and the blanket impl)

When no command of a set carries a subcommand, the generated path type IS
the identifier type, and parsing goes through the blanket
impl〚T: CommandId〛CommandPath for T of docbot/lib.rs (lines 164-181): pop
the head (absent: Incomplete with all names), reject a second token as
Trailing, then run the identifier lexer.  parse_opt is the provided trait
method (lines 148-158), turning Incomplete into Ok(None) and forwarding
everything else. -/

namespace SetSpec

/-- The blanket CommandPath::parse for an identifier type. -/
def idPathParse (set : SetSpec) (root : TrieParts Nat) (toks : List String) :
    Except PathParseError Nat :=
  match toks with
  | [] => .error (.incomplete set.names)
  | head :: rest =>
    match rest with
    | s :: _ => .error (.trailing s)
    | [] =>
      match set.parseId root head with
      | .error e => .error (.badId e)
      | .ok k => .ok k

end SetSpec

/-- CommandPath::parse_opt, the provided method of the trait: map the result
of parse, turning an Incomplete error into Ok(None) and forwarding any other
outcome unchanged. -/
def pathParseOpt {P : Type} (r : Except PathParseError P) : Except PathParseError (Option P) :=
  match r with
  | .error (.incomplete _) => .ok Option.none
  | .error e => .error e
  | .ok p => .ok (Option.some p)

/-! ## The help model (docbot-derive/bits/help.rs)

Help topics for a command set are static: a root CommandSet topic carrying
the set summary and every command usage, and a Command topic per variant.
A variant whose command is tagged subcommand delegates to the nested type's
own help.  Because command sets nest through subcommand fields, the help
model is a recursive structure; the spine is hand-rolled so that all
recursion below is structural. -/

/-- Per-command description record (docbot/lib.rs struct CommandDesc):
summary, argument descriptions (name, is_required, text) and examples. -/
structure DescM where
  summary : Option String
  args : List (String × Bool × String)
  examples : Option String
deriving DecidableEq, Repr

mutual
/-- A command set as the Help impl sees it: set summary and variants. -/
inductive HelpSet where
  | mk (summary : Option String) (cmds : HelpCmds)
/-- Spine of the variant list. -/
inductive HelpCmds where
  | nil
  | cons (c : HelpCmd) (rest : HelpCmds)
/-- One variant: usage, description, and the nested command set when the
variant is tagged subcommand. -/
inductive HelpCmd where
  | mk (usage : UsageModel) (desc : DescM) (nested : HelpSubOpt)
/-- Optional nested set (Option spelled out to keep recursion structural). -/
inductive HelpSubOpt where
  | none
  | some (s : HelpSet)
end

/-- A help topic (docbot/lib.rs enum HelpTopic). -/
inductive HelpTopic where
  | command (usage : UsageModel) (desc : DescM)
  | commandSet (summary : Option String) (usages : List UsageModel)
  | custom (text : String)

/-- A value of the generated path type: the variant index (standing for the
identifier) and, for subcommand variants, the optional nested path. -/
inductive PathV where
  | node (k : Nat) (sub : Option PathV)

namespace Help

/-- The usage models of a variant list, for the root CommandSet topic. -/
def usages : HelpCmds → List UsageModel
  | .nil => []
  | .cons (.mk u _ _) rest => u :: usages rest

/-- Whether any variant is tagged subcommand.  When none is, the derive
takes the is_id route: the path type is the identifier type itself
(docbot-derive/bits/path.rs, fn emit). -/
def anySub : HelpCmds → Bool
  | .nil => false
  | .cons (.mk _ _ (.some _)) _ => true
  | .cons (.mk _ _ .none) rest => anySub rest

mutual
/-- The generated Help::help (docbot-derive/bits/help.rs, fn emit, Enum
case): None yields the static root CommandSet topic; Some(path) matches the
head variant, returning its static Command topic, except that a subcommand
variant delegates to the nested type's help on the nested path
(fn get_topic_pats).  An out-of-range index (impossible for a real
identifier value) yields none. -/
def help : HelpSet → Option PathV → Option HelpTopic
  | .mk summary cmds, Option.none => Option.some (.commandSet summary (usages cmds))
  | .mk _ cmds, Option.some (.node k sub) => helpAt cmds k sub
/-- Walk to the k-th variant and produce its topic. -/
def helpAt : HelpCmds → Nat → Option PathV → Option HelpTopic
  | .nil, _, _ => Option.none
  | .cons (.mk u d .none) _, 0, _ => Option.some (.command u d)
  | .cons (.mk _ _ (.some hs)) _, 0, sub => help hs sub
  | .cons _ rest, Nat.succ k, sub => helpAt rest k sub
end

/-- Path::from for an identifier value.  In the is_id case (no subcommand
variants) the path type is the identifier type and From is the identity; in
the other case the generated impl From〚Id〛 for the path type is todo!()
(docbot-derive/bits/path.rs lines 145-147), i.e. a panic, modelled as none. -/
def fromId (s : HelpSet) (k : Nat) : Option PathV :=
  match s with
  | .mk _ cmds => if anySub cmds then Option.none else Option.some (.node k Option.none)

/-- The k-th variant of a help set. -/
def cmdsGet : HelpCmds → Nat → Option HelpCmd
  | .nil, _ => Option.none
  | .cons c _, 0 => Option.some c
  | .cons _ rest, Nat.succ k => cmdsGet rest k

/-- The variant list of a help set. -/
def cmdsOf : HelpSet → HelpCmds
  | .mk _ cs => cs

end Help

/-! ## The usage-grammar and doc-block parsers (docbot-derive/docs.rs)

The regexes of docs.rs are hand-translated to character-list scanners:
- USAGE_SPLIT_RE: optional whitespace, a backtick-delimited usage span whose
  content may contain doubled backticks, an optional colon, whitespace, and
  the short description as the remainder of the paragraph;
- COMMAND_IDS_RE: either a bare non-parenthesised token, or a parenthesised
  alias list split on pipes with separator-adjacent whitespace;
- REQUIRED_ARG_RE and OPTIONAL_ARG_RE: an angle-bracketed (resp.
  square-bracketed) name, restricted by the pattern alternation to names of
  at most two characters or names whose last three characters are all
  non-periods;
- REST_ARG_RE: a bracketed capture of at least one character followed by
  three unescaped dots, which in a regex match any three characters, so the
  content must be at least four characters long and the capture drops the
  final three;
- TRAILING_RE: any remaining non-whitespace character is a fatal error;
- LINE_RE: relax_lines replaces every whitespace run containing a newline by
  one space, after trimming;
- HEADER_RE: optional whitespace, a hash, the header word, then whitespace
  up to and including the first newline;
- ARGUMENT_RE (multi-line mode): an argument entry is a line made of a
  non-empty colon-free trimmed name followed by a colon and the value start.
Error messages are kept without their formatted payloads. -/

namespace Docs

/-- The backtick character that delimits the usage token span. -/
def backquote : Char := Char.ofNat 96

/-- Leading-whitespace skip, the translation of a leading regex \s*. -/
def skipWs (cs : List Char) : List Char := cs.dropWhile (fun c => c.isWhitespace)

/-- Trailing-whitespace trim on a character list. -/
def trimRight (cs : List Char) : List Char := (skipWs cs.reverse).reverse

/-- Rust str::trim, as a whole-string operation (kept kernel-reducible by
working on the character list). -/
def trimStr (s : String) : String := ⟨trimRight (skipWs s.data)⟩

/-- One step of relax_lines: flush a pending (reversed) whitespace run,
collapsing it to one space when it contains a newline (an empty run flushes
to nothing either way). -/
def flushWs (buf : List Char) : List Char :=
  if '\n' ∈ buf then [' '] else buf.reverse

/-- Scanner for LINE_RE replacement: copy characters, buffering whitespace
runs and collapsing any run that contains a newline to a single space. -/
def relaxLoop (buf : List Char) : List Char → List Char
  | [] => flushWs buf
  | c :: cs =>
    if c.isWhitespace then relaxLoop (c :: buf) cs
    else flushWs buf ++ c :: relaxLoop [] cs

/-- docs.rs fn relax_lines: trim, then replace each whitespace run
containing a newline by a single space. -/
def relax_lines (s : String) : String := ⟨relaxLoop [] (trimStr s).data⟩

/-- docs.rs fn take_paragraph, the iterator loop: consume lines until a
blank line (which is itself consumed) or the end; preserve_lines keeps each
raw line with a newline, otherwise trimmed lines are joined by single
spaces.  Returns None when no non-blank line was consumed.  The second
component is what remains of the line iterator. -/
def takeParagraphGo (preserve : Bool) (acc : String) (started : Bool) :
    List String → Option String × List String
  | [] => (if started then Option.some acc else Option.none, [])
  | s :: rest =>
    if (trimStr s).data.isEmpty then (if started then Option.some acc else Option.none, rest)
    else
      takeParagraphGo preserve
        (if preserve then acc ++ s ++ "\n"
         else if acc.data.isEmpty then trimStr s else acc ++ " " ++ trimStr s)
        true rest

/-- docs.rs fn take_paragraph. -/
def take_paragraph (docs : List String) (preserve : Bool) : Option String × List String :=
  takeParagraphGo preserve "" false docs

/-- The backtick-delimited content group of USAGE_SPLIT_RE: scan to the
closing backtick, keeping doubled backticks as content; None when the span
never closes (no regex match).  Returns the content (reversed accumulator
convention) and the remainder after the closing backtick. -/
def usageContent (acc : List Char) : List Char → Option (List Char × List Char)
  | [] => Option.none
  | [c] => if c = backquote then Option.some (acc.reverse, []) else Option.none
  | c :: c2 :: cs =>
    if c = backquote then
      if c2 = backquote then usageContent (c2 :: c :: acc) cs
      else Option.some (acc.reverse, c2 :: cs)
    else usageContent (c :: acc) (c2 :: cs)

/-- USAGE_SPLIT_RE, left part: skip whitespace, require an opening backtick,
scan the content span. -/
def splitUsage (par : String) : Option (List Char × List Char) :=
  match skipWs par.data with
  | [] => Option.none
  | c :: rest => if c = backquote then usageContent [] rest else Option.none

/-- USAGE_SPLIT_RE, right part: after the span, an optional colon (with
leading whitespace) and whitespace are consumed; the rest is the short
description. -/
def descAfter (cs : List Char) : String :=
  let cs := skipWs cs
  match cs with
  | ':' :: r => ⟨skipWs r⟩
  | _ => ⟨cs⟩

/-- PIPE_RE split of a parenthesised alias list: the separator "\s*\|\s*"
owns the whitespace adjacent to each pipe. -/
def pipePieces (acc : List Char) : List Char → List (List Char)
  | [] => [acc.reverse]
  | c :: cs => if c = '|' then acc.reverse :: pipePieces [] cs else pipePieces (c :: acc) cs

/-- Alias-list split: strip separator-adjacent whitespace from each piece
(outer whitespace of the first and last piece belongs to the piece). -/
def pipeSplit (cs : List Char) : List String :=
  let ps := pipePieces [] cs
  match ps with
  | [] => []
  | [p] => [⟨p⟩]
  | p :: rest =>
    (⟨trimRight p⟩ : String) ::
      (rest.dropLast.map fun q => (⟨skipWs (trimRight q)⟩ : String)) ++
      (rest.getLast?.map fun q => (⟨skipWs q⟩ : String)).toList

/-- COMMAND_IDS_RE: a bare non-parenthesised token, or a parenthesised
pipe-separated alias list.  Returns the identifier list and the remainder. -/
def parseIds (cs : List Char) : Option (List String × List Char) :=
  match skipWs cs with
  | [] => Option.none
  | '(' :: rest =>
    let inner := (skipWs rest).takeWhile (fun c => c ≠ ')')
    let after := (skipWs rest).dropWhile (fun c => c ≠ ')')
    match after with
    | ')' :: after' => Option.some (pipeSplit inner, after')
    | _ => Option.none
  | c :: rest =>
    Option.some
      ([(⟨c :: rest.takeWhile (fun x => ¬ x.isWhitespace)⟩ : String)],
        rest.dropWhile (fun x => ¬ x.isWhitespace))

/-- The name guard shared by REQUIRED_ARG_RE and OPTIONAL_ARG_RE: the
captured name is the whole bracket content, and the pattern accepts it when
it has at most two characters, or when its last three characters are all
distinct from the period (alternative "[^>]*[^>\.]пу3пу"). -/
def argNameOk (content : List Char) : Bool :=
  content.length ≤ 2 ∨
    (3 ≤ content.length ∧ (content.drop (content.length - 3)).all (fun c => c ≠ '.'))

/-- One match step of REQUIRED_ARG_RE (opn = <, cls = >) or OPTIONAL_ARG_RE
(opn = [, cls = ]) after whitespace: require the opening bracket, capture up
to the first closing bracket (which must exist), apply the name guard.
Returns the captured name and the remainder after the closing bracket. -/
def argTokenCore (opn cls : Char) : List Char → Option (String × List Char)
  | [] => Option.none
  | c :: rest =>
    if c = opn then
      if (rest.dropWhile (fun x => x ≠ cls)).isEmpty then Option.none
      else if argNameOk (rest.takeWhile (fun x => x ≠ cls)) then
        Option.some (⟨rest.takeWhile (fun x => x ≠ cls)⟩,
          (rest.dropWhile (fun x => x ≠ cls)).tail)
      else Option.none
    else Option.none

/-- A whole REQUIRED_ARG_RE / OPTIONAL_ARG_RE match: leading whitespace,
then the bracketed token. -/
def argToken (opn cls : Char) (cs : List Char) : Option (String × List Char) :=
  argTokenCore opn cls (skipWs cs)

/-- The required-token (resp. optional-token) loop of fn parse_usage_desc:
repeat argToken while it matches.  Fuel bounds the iteration; each match
consumes at least the two brackets, so the initial character count is always
sufficient fuel. -/
def manyArgs (opn cls : Char) : Nat → List Char → List String × List Char
  | 0, cs => ([], cs)
  | Nat.succ fuel, cs =>
    match argToken opn cls cs with
    | Option.none => ([], cs)
    | Option.some (n, after) =>
      let r := manyArgs opn cls fuel after
      (n :: r.1, r.2)

/-- One alternative of REST_ARG_RE: bracketed content of length at least
four; the capture drops the last three characters (the unescaped dots of the
pattern match any three characters). -/
def restPart (opn cls : Char) (cs : List Char) : Option (String × List Char) :=
  match skipWs cs with
  | [] => Option.none
  | c :: rest =>
    if c = opn then
      let content := rest.takeWhile (fun x => x ≠ cls)
      match rest.dropWhile (fun x => x ≠ cls) with
      | _ :: after =>
        if 4 ≤ content.length then
          Option.some (⟨content.take (content.length - 3)⟩, after)
        else Option.none
      | [] => Option.none
    else Option.none

/-- REST_ARG_RE: an angle-bracketed rest token is required, a
square-bracketed one optional; no match leaves RestArg.none. -/
def restToken (cs : List Char) : RestArg × List Char :=
  match restPart '<' '>' cs with
  | Option.some (n, after) => (RestArg.required n, after)
  | Option.none =>
    match restPart '[' ']' cs with
    | Option.some (n, after) => (RestArg.optional n, after)
    | Option.none => (RestArg.none, cs)

/-- docs.rs fn parse_usage_desc: split the paragraph into usage span and
description, parse the identifier clause, the required and optional token
lists, the optional rest token, and reject leftover non-whitespace. -/
def parse_usage_desc (par : String) : Except String UsageModel :=
  match splitUsage par with
  | Option.none => .error "Invalid usage paragraph, format should be usage description"
  | Option.some (usage, afterSpan) =>
    match parseIds usage with
    | Option.none => .error "invalid command ID specifier"
    | Option.some (ids, cs1) =>
      let req := manyArgs '<' '>' cs1.length cs1
      let opt := manyArgs '[' ']' req.2.length req.2
      let rest := restToken opt.2
      if rest.2.any (fun c => ¬ c.isWhitespace) then .error "trailing string"
      else .ok ⟨ids, req.1, opt.1, rest.1, descAfter afterSpan⟩

/-- An argument-entry line of ARGUMENT_RE: leading whitespace, a non-empty
colon-free name (right-trimmed), a colon, then whitespace-skipped value
start.  Other lines are continuation lines of the previous value. -/
def argEntryOf (ls : List Char) : Option (String × List Char) :=
  let t := skipWs ls
  let nm := t.takeWhile (fun c => c ≠ ':')
  match t.dropWhile (fun c => c ≠ ':') with
  | ':' :: r =>
    match trimRight nm with
    | [] => Option.none
    | name => Option.some (⟨name⟩, skipWs r)
  | _ => Option.none

/-- Join value lines with the newlines the captures_iter extent preserves
between an entry and the next. -/
def joinLines : List (List Char) → List Char
  | [] => []
  | [l] => l
  | l :: ls => l ++ '\n' :: joinLines ls

/-- The captures_iter scan of fn parse_argument_lines: each entry line opens
a value extending to the line before the next entry line; the value text is
line-collapsed by relax_lines.  Fuel bounds the iteration (one line is
consumed per step, so the line count is sufficient fuel). -/
def entriesLoop : Nat → List (List Char) → List (String × String)
  | 0, _ => []
  | Nat.succ _, [] => []
  | Nat.succ fuel, l :: rest =>
    match argEntryOf l with
    | Option.none => entriesLoop fuel rest
    | Option.some (name, v0) =>
      let vlines := rest.takeWhile (fun l' => (argEntryOf l').isNone)
      let rest' := rest.dropWhile (fun l' => (argEntryOf l').isNone)
      (name, relax_lines ⟨joinLines (v0 :: vlines)⟩) :: entriesLoop fuel rest'

/-- Split a section body into lines. -/
def splitLines (acc : List Char) : List Char → List (List Char)
  | [] => [acc.reverse]
  | c :: cs => if c = '\n' then acc.reverse :: splitLines [] cs else splitLines (c :: acc) cs

/-- First name that already occurred earlier in the entry list (the occupied
HashMap entry that raises the duplicate error). -/
def firstDup (seen : List String) : List (String × String) → Option String
  | [] => Option.none
  | (n, _) :: rest => if seen.contains n then Option.some n else firstDup (n :: seen) rest

/-- The expected (name, is_required) list derived from a usage model
(fn parse_argument_lines, expected_args). -/
def expectedArgs (u : UsageModel) : List (String × Bool) :=
  u.required.map (fun n => (n, true)) ++ u.optional.map (fun n => (n, false)) ++
    (match u.rest with
     | RestArg.none => []
     | RestArg.optional n => [(n, false)]
     | RestArg.required n => [(n, true)])

/-- docs.rs fn parse_argument_lines: scan the entries, reject duplicates,
reject a non-empty body with no entries, require documentation for every
expected argument, require equal counts, and reorder the result to usage
order tagged with the required flag. -/
def parse_argument_lines (u : UsageModel) (s : String) :
    Except String (List (String × Bool × String)) :=
  let lines := splitLines [] s.data
  let entries := entriesLoop lines.length lines
  match firstDup [] entries with
  | Option.some _ => .error "duplicate argument description"
  | Option.none =>
    if ¬ s.data.isEmpty ∧ entries.isEmpty then .error "unexpected argument description format"
    else
      let expected := expectedArgs u
      match expected.find? (fun e => (entries.lookup e.1).isNone) with
      | Option.some _ => .error "missing documentation for argument"
      | Option.none =>
        if entries.length ≠ expected.length then
          .error "mismatched number of argument descriptions"
        else .ok (expected.map fun e => (e.1, e.2, (entries.lookup e.1).getD ""))

/-- HEADER_RE: leading whitespace, a hash, whitespace, the header word, then
only whitespace up to and including the first newline; the body is
everything after that newline. -/
def parseHeader (par : String) : Option (String × String) :=
  match skipWs par.data with
  | '#' :: rest =>
    let afterHash := skipWs rest
    let word := afterHash.takeWhile (fun c => ¬ c.isWhitespace)
    match word with
    | [] => Option.none
    | _ =>
      let tailPart := afterHash.dropWhile (fun c => ¬ c.isWhitespace)
      let pre := tailPart.takeWhile (fun c => c.isWhitespace ∧ c ≠ '\n')
      match tailPart.drop pre.length with
      | '\n' :: body => Option.some (⟨word⟩, ⟨body⟩)
      | _ => Option.none
  | _ => Option.none

/-- The parsed document model (docs.rs struct CommandDocs, minus spans). -/
structure CommandDocsM where
  usage : UsageModel
  summary : Option String
  args : List (String × Bool × String)
  examples : Option String
deriving DecidableEq, Repr

/-- The section loop of CommandDocs::parse_docs: take header-led paragraphs
(preserving lines), dispatch on the lowercased header word, reject duplicate
sections, ignore unknown headers.  Fuel bounds the iteration (take_paragraph
consumes at least one line whenever it yields a paragraph, so the line count
is sufficient fuel). -/
def sectionsLoop (u : UsageModel) :
    Nat → List String → Option String → Option (List (String × Bool × String)) →
    Option String →
    Except String (Option String × Option (List (String × Bool × String)) × Option String)
  | 0, _, summary, args, examples => .ok (summary, args, examples)
  | Nat.succ fuel, docs, summary, args, examples =>
    match take_paragraph docs true with
    | (Option.none, _) => .ok (summary, args, examples)
    | (Option.some par, rest) =>
      match parseHeader par with
      | Option.none => .error "paragraph missing header"
      | Option.some (word, body) =>
        if lowercase word = "description" ∨ lowercase word = "overview" ∨
            lowercase word = "summary" then
          match summary with
          | Option.some _ => .error "multiple summary sections found"
          | Option.none =>
            sectionsLoop u fuel rest (Option.some (relax_lines body)) args examples
        else if lowercase word = "arguments" ∨ lowercase word = "parameters" then
          match args with
          | Option.some _ => .error "multiple arguments sections found"
          | Option.none =>
            match parse_argument_lines u body with
            | .error e => .error e
            | .ok a => sectionsLoop u fuel rest summary (Option.some a) examples
        else if lowercase word = "examples" then
          match examples with
          | Option.some _ => .error "multiple examples sections found"
          | Option.none =>
            sectionsLoop u fuel rest summary args (Option.some (relax_lines body))
        else sectionsLoop u fuel rest summary args examples

/-- docs.rs impl ParseDocs for CommandDocs, fn parse_docs: parse the first
paragraph as the usage line, run the section loop, require a non-empty short
description, and default a missing arguments section to an empty body. -/
def parse_docs (docs : List String) : Except String CommandDocsM :=
  match parse_usage_desc ((take_paragraph docs false).1.getD "") with
  | .error e => .error e
  | .ok usage =>
    match sectionsLoop usage docs.length (take_paragraph docs false).2
        Option.none Option.none Option.none with
    | .error e => .error e
    | .ok (summary, args, examples) =>
      if (trimStr usage.desc).data.isEmpty then .error "missing command description"
      else
        match args with
        | Option.some a => .ok ⟨usage, summary, a, examples⟩
        | Option.none =>
          match parse_argument_lines usage "" with
          | .error e => .error e
          | .ok a => .ok ⟨usage, summary, a, examples⟩

end Docs

/-! ## Fuzzy suggestions (docbot/did_you_mean.rs)

did_you_mean scores every option by the strsim crate's normalized
Damerau-Levenshtein similarity of the given input against the option
truncated to the length of the input plus one, pushes the scored options
into a max-heap ordered by score and then by reversed string order, and
pops until the first score below 0.3.  The f64 scores are modelled as exact
rationals, byte slicing as character slicing, and the heap pop sequence as a
sort by the heap order (the order is total and, on equal keys, the elements
compared are equal, so the pop sequence is determined). -/

namespace Dym

/-- The Damerau-Levenshtein distance with adjacent transpositions, the
distance computed by strsim::damerau_levenshtein: the standard
matrix algorithm over a flat (n+2) by (m+2) table with a last-occurrence
map.  Indices are shifted by one so that row and column 0 hold the
max-distance sentinel. -/
def damerau_levenshtein (a b : List Char) : Nat :=
  let la := a.length
  let lb := b.length
  if la = 0 then lb
  else if lb = 0 then la
  else Id.run do
    let aa := a.toArray
    let ba := b.toArray
    let width := la + 2
    let maxd := la + lb
    let mut d : Array Nat := Array.mkArray ((la + 2) * (lb + 2)) 0
    d := d.set! 0 maxd
    for i in [0:la+1] do
      d := d.set! ((i + 1) + 0 * width) maxd
      d := d.set! ((i + 1) + 1 * width) i
    for j in [0:lb+1] do
      d := d.set! (0 + (j + 1) * width) maxd
      d := d.set! (1 + (j + 1) * width) j
    let mut lastRow : List (Char × Nat) := []
    for i in [1:la+1] do
      let mut db := 0
      for j in [1:lb+1] do
        let k := (lastRow.lookup (ba.get! (j - 1))).getD 0
        let l := db
        let cost := if aa.get! (i - 1) = ba.get! (j - 1) then 0 else 1
        if cost = 0 then db := j
        let sub := d.get! (i + j * width) + cost
        let ins := d.get! ((i + 1) + j * width) + 1
        let del := d.get! (i + (j + 1) * width) + 1
        let trans := d.get! (k + l * width) + (i - k - 1) + 1 + (j - l - 1)
        d := d.set! ((i + 1) + (j + 1) * width) (Nat.min (Nat.min sub ins) (Nat.min del trans))
      lastRow := (aa.get! (i - 1), i) :: lastRow
    return d.get! ((la + 1) + (lb + 1) * width)

/-- strsim::normalized_damerau_levenshtein: one minus the distance divided
by the longer length; two empty strings are fully similar. -/
def normalized_damerau_levenshtein (a b : List Char) : ℚ :=
  if a.isEmpty ∧ b.isEmpty then 1
  else 1 - (damerau_levenshtein a b : ℚ) / (Nat.max a.length b.length : ℚ)

/-- The score did_you_mean assigns an option: normalized similarity of the
given input against the option truncated to the overlapping length, at most
one character longer than the input (did_you_mean.rs, the slice
opt_str[0..opt_str.len().min(given.len() + 1)], with bytes modelled as
characters). -/
def similarity (given opt : List Char) : ℚ :=
  normalized_damerau_levenshtein given (opt.take (Nat.min opt.length (given.length + 1)))

/-- The max-heap pop order of did_you_mean.rs struct DidYouMean: higher
score first; on equal scores the lexicographically smaller option pops
first (its Ord compares scores, then the strings reversed). -/
def dymRel (x y : ℚ × String) : Prop :=
  y.1 < x.1 ∨ (x.1 = y.1 ∧ x.2 ≤ y.2)

instance : DecidableRel dymRel := fun x y => by
  unfold dymRel; infer_instance

instance : IsTotal (ℚ × String) dymRel where
  total x y := by
    rcases lt_trichotomy x.1 y.1 with h | h | h
    · exact Or.inr (Or.inl h)
    · rcases le_total x.2 y.2 with h2 | h2
      · exact Or.inl (Or.inr ⟨h, h2⟩)
      · exact Or.inr (Or.inr ⟨h.symm, h2⟩)
    · exact Or.inl (Or.inl h)

instance : IsTrans (ℚ × String) dymRel where
  trans x y z hxy hyz := by
    rcases hxy with h1 | ⟨e1, s1⟩
    · rcases hyz with h2 | ⟨e2, s2⟩
      · exact Or.inl (h2.trans h1)
      · exact Or.inl (e2 ▸ h1)
    · rcases hyz with h2 | ⟨e2, s2⟩
      · exact Or.inl (e1 ▸ h2)
      · exact Or.inr ⟨e1.trans e2, s1.trans s2⟩

/-- docbot/did_you_mean.rs fn did_you_mean: score every option, order by
the heap order, and keep options while the score is at least 0.3. -/
def did_you_mean (given : String) (options : List String) : List String :=
  let scored := options.map (fun o => (similarity given.data o.data, o))
  let sorted := scored.insertionSort dymRel
  (sorted.takeWhile (fun p => decide ((3 : ℚ) / 10 ≤ p.1))).map (fun p => p.2)

end Dym

/-! ## Concrete instances used to witness the theorems below -/

/-- A command with two required arguments, one optional argument and no rest
field, with canonical name push and an alias. -/
def wUsage : UsageModel := ⟨["push", "p"], ["a", "b"], ["c"], RestArg.none, "Push."⟩

/-- A one-command set around wUsage. -/
def wSet : SetSpec := ⟨[⟨wUsage, false⟩]⟩

/-- The identifier trie of wSet. -/
def wRoot : TrieParts Nat := (wSet.buildTrie).toOption.getD (.mk Option.none .nil)

/-- A command with one required argument and a required rest argument. -/
def wRestSet : SetSpec := ⟨[⟨⟨["go"], ["x"], [], RestArg.required "r", "Go."⟩, false⟩]⟩

/-- The identifier trie of wRestSet. -/
def wRestRoot : TrieParts Nat := (wRestSet.buildTrie).toOption.getD (.mk Option.none .nil)

/-- A command with one optional rest argument. -/
def wOptRestSet : SetSpec := ⟨[⟨⟨["ls"], [], [], RestArg.optional "r", "List."⟩, false⟩]⟩

/-- The identifier trie of wOptRestSet. -/
def wOptRestRoot : TrieParts Nat := (wOptRestSet.buildTrie).toOption.getD (.mk Option.none .nil)

/-- A set where deploy is the only identifier starting with de. -/
def deploySet : SetSpec := ⟨[⟨⟨["deploy"], [], [], RestArg.none, "D."⟩, false⟩]⟩

/-- The identifier trie of deploySet. -/
def deployRoot : TrieParts Nat := (deploySet.buildTrie).toOption.getD (.mk Option.none .nil)

/-- A set declaring both deploy and delete. -/
def deployDeleteSet : SetSpec :=
  ⟨[⟨⟨["deploy"], [], [], RestArg.none, "D."⟩, false⟩,
    ⟨⟨["delete"], [], [], RestArg.none, "E."⟩, false⟩]⟩

/-- The identifier trie of deployDeleteSet. -/
def deployDeleteRoot : TrieParts Nat :=
  (deployDeleteSet.buildTrie).toOption.getD (.mk Option.none .nil)

/-- A set where the complete identifier de is a strict prefix of another
command identifier deploy. -/
def dePrefixSet : SetSpec :=
  ⟨[⟨⟨["de"], [], [], RestArg.none, "A."⟩, false⟩,
    ⟨⟨["deploy"], [], [], RestArg.none, "B."⟩, false⟩]⟩

/-- The identifier trie of dePrefixSet. -/
def dePrefixRoot : TrieParts Nat := (dePrefixSet.buildTrie).toOption.getD (.mk Option.none .nil)

/-- An empty description record. -/
def emptyDesc : DescM := ⟨Option.none, [], Option.none⟩

/-- A nested help set with a single command, used as a subcommand target. -/
def subHelpSet : HelpSet :=
  .mk Option.none (.cons (.mk ⟨["sub"], [], [], RestArg.none, "S."⟩ emptyDesc .none) .nil)

/-- A help set whose only command is tagged subcommand. -/
def cexHelpSet : HelpSet :=
  .mk Option.none
    (.cons (.mk ⟨["outer"], [], [], RestArg.none, "O."⟩ emptyDesc (.some subHelpSet)) .nil)

/-- Variant list of a subcommand-free help set with two commands. -/
def wHelpCmds : HelpCmds :=
  .cons (.mk wUsage emptyDesc .none)
    (.cons (.mk ⟨["pull"], [], [], RestArg.none, "Pull."⟩ emptyDesc .none) .nil)

/-- A subcommand-free help set with two commands, one with an alias. -/
def wHelpSet : HelpSet := .mk (Option.some "sum") wHelpCmds

/-- A doc block whose examples section spans two lines. -/
def cexDocs : List String :=
  ["`cmd` A description.", "", "# examples", "line one", "line two"]

/-! ## Theorems -/

theorem fuse_map_some (l : List String) : fuse (l.map Option.some) = l := by
  induction l with
  | nil => rfl
  | cons t ts ih => simp [fuse, ih]

/-- C10: the generated Command::parse fuses its input iterator before
reading any token, so parsing any iterator equals parsing its fused form,
the behaviour never depends on elements after the first None, and an
entirely empty stream yields NoInput. -/
theorem command_parse_fused {V : Type} (set : SetSpec) (root : TrieParts Nat)
    (cv : Nat → Nat → String → Except String V)
    (sub : Nat → List String → Except CommandParseError V)
    (input : List (Option String)) :
    SetSpec.parse set root cv sub input =
      SetSpec.parse set root cv sub ((fuse input).map Option.some) ∧
    SetSpec.parse set root cv sub ([] : List (Option String)) = .error .noInput ∧
    ∀ rest, SetSpec.parse set root cv sub (Option.none :: rest) = .error .noInput := by
  refine ⟨?_, rfl, fun rest => rfl⟩
  unfold SetSpec.parse
  rw [fuse_map_some]

/-- C1: for a command declaring required arguments a and b, optional
argument c and no rest field, with an identifier token resolving to it and
tokens that convert successfully: one argument is a MissingRequired for b,
two succeed with c = None, three succeed with c = Some, and four give
Trailing with the canonical name and the fourth token. -/
theorem arity_two_required_one_optional {V : Type} (set : SetSpec) (root : TrieParts Nat)
    (k : Nat) (cv : Nat → Nat → String → Except String V)
    (sub : Nat → List String → Except CommandParseError V)
    (a b c idtok v1 v2 v3 v4 : String) (x1 x2 x3 : V)
    (hreq : (set.getCmd k).usage.required = [a, b])
    (hopt : (set.getCmd k).usage.optional = [c])
    (hrest : (set.getCmd k).usage.rest = RestArg.none)
    (hid : set.parseId root idtok = .ok k)
    (h1 : cv k 0 v1 = .ok x1) (h2 : cv k 1 v2 = .ok x2) (h3 : cv k 2 v3 = .ok x3) :
    set.parse root cv sub [Option.some idtok, Option.some v1] =
      .error (.missingRequired ⟨set.canonical k, b⟩) ∧
    set.parse root cv sub [Option.some idtok, Option.some v1, Option.some v2] =
      .ok (k, [.one x1, .one x2, .opt Option.none]) ∧
    set.parse root cv sub [Option.some idtok, Option.some v1, Option.some v2, Option.some v3] =
      .ok (k, [.one x1, .one x2, .opt (Option.some x3)]) ∧
    set.parse root cv sub
        [Option.some idtok, Option.some v1, Option.some v2, Option.some v3, Option.some v4] =
      .error (.trailing (set.canonical k) v4) := by
  refine ⟨?_, ?_, ?_, ?_⟩ <;>
    simp [SetSpec.parse, fuse, hid, SetSpec.parseCmd, fieldInfos, hreq, hopt, hrest,
      runFields, h1, h2, h3, Except.map]

/-- Witness for the arity theorem at the concrete wSet command push. -/
theorem arity_two_required_one_optional_witness :
    wSet.parse wRoot (fun _ _ t => .ok t) (fun _ _ => .error .noInput)
        [Option.some "push", Option.some "v1"] =
      .error (.missingRequired ⟨"push", "b"⟩) := by
  have h := arity_two_required_one_optional (V := String) wSet wRoot 0
    (fun _ _ t => .ok t) (fun _ _ => .error .noInput)
    "a" "b" "c" "push" "v1" "v2" "v3" "v4" "v1" "v2" "v3"
    (by rfl) (by rfl) (by rfl) (by rfl) (by rfl) (by rfl) (by rfl)
  exact h.1

theorem convertAll_spec {V : Type} (a : ArgumentName) (cv : String → Except String V) :
    ∀ toks : List String, (∀ t ∈ toks, ∃ v, cv t = .ok v) →
    ∃ vs, convertAll a cv toks = .ok vs ∧ vs.length = toks.length ∧
      ∀ j, ∀ h1 : j < toks.length, ∀ h2 : j < vs.length,
        cv (toks.get ⟨j, h1⟩) = .ok (vs.get ⟨j, h2⟩) := by
  intro toks
  induction toks with
  | nil => exact fun _ => ⟨[], rfl, rfl, fun j h1 => absurd h1 (Nat.not_lt_zero j)⟩
  | cons t ts ih =>
    intro h
    obtain ⟨v, hv⟩ := h t (List.mem_cons_self t ts)
    obtain ⟨vs, hvs, hlen, hpt⟩ := ih (fun u hu => h u (List.mem_cons_of_mem t hu))
    refine ⟨v :: vs, ?_, by simp [hlen], ?_⟩
    · simp [convertAll, hv, hvs, Except.map]
    · intro j h1 h2
      match j with
      | 0 => simpa using hv
      | Nat.succ j' => simpa using hpt j' (by simpa using h1) (by simpa using h2)

theorem convertAll_err {V : Type} (a : ArgumentName) (cv : String → Except String V)
    (bad : String) (e : String) (post : List String) (he : cv bad = .error e) :
    ∀ pre : List String, (∀ t ∈ pre, ∃ v, cv t = .ok v) →
    convertAll a cv (pre ++ bad :: post) = .error (.badConvert a e) := by
  intro pre
  induction pre with
  | nil => intro _; simp [convertAll, he]
  | cons t ts ih =>
    intro h
    obtain ⟨v, hv⟩ := h t (List.mem_cons_self t ts)
    simp [convertAll, hv, ih (fun u hu => h u (List.mem_cons_of_mem t hu)), Except.map]

theorem runFields_append {V : Type} (cmdName : String) (cv : Nat → String → Except String V)
    (subFlag : Bool) (subParse : List String → Except CommandParseError V) :
    ∀ (fs1 fs2 : List (FieldMode × String)) (i : Nat) (toks : List String),
    runFields cmdName cv subFlag subParse (fs1 ++ fs2) i toks =
      match runFields cmdName cv subFlag subParse fs1 i toks with
      | .error e => .error e
      | .ok (vs, rem) =>
        (runFields cmdName cv subFlag subParse fs2 (i + fs1.length) rem).map
          (fun vr => (vs ++ vr.1, vr.2)) := by
  intro fs1
  induction fs1 with
  | nil =>
    intro fs2 i toks
    simp only [List.nil_append, runFields, List.length_nil, Nat.add_zero]
    cases runFields cmdName cv subFlag subParse fs2 i toks <;> simp [Except.map]
  | cons f fs ih =>
    intro fs2 i toks
    obtain ⟨m, name⟩ := f
    have hlen : i + (fs.length + 1) = (i + 1) + fs.length := by omega
    cases m with
    | required =>
      cases toks with
      | nil => simp [runFields]
      | cons t ts =>
        simp only [List.cons_append, runFields, List.append_eq, List.length_cons, hlen]
        cases cv i t with
        | error e => simp
        | ok v =>
          simp only [ih]
          rcases hfs : runFields cmdName cv subFlag subParse fs (i + 1) ts with e | vr
          · simp [hfs, Except.map]
          · rcases hfs2 : runFields cmdName cv subFlag subParse fs2 (i + 1 + fs.length) vr.2
              with e2 | vr2 <;> simp [hfs, hfs2, Except.map]
    | optional =>
      cases toks with
      | nil =>
        simp only [List.cons_append, runFields, List.append_eq, List.length_cons, hlen, ih]
        rcases hfs : runFields cmdName cv subFlag subParse fs (i + 1) [] with e | vr
        · simp [hfs, Except.map]
        · rcases hfs2 : runFields cmdName cv subFlag subParse fs2 (i + 1 + fs.length) vr.2
            with e2 | vr2 <;> simp [hfs, hfs2, Except.map]
      | cons t ts =>
        simp only [List.cons_append, runFields, List.append_eq, List.length_cons, hlen]
        cases cv i t with
        | error e => simp
        | ok v =>
          simp only [ih]
          rcases hfs : runFields cmdName cv subFlag subParse fs (i + 1) ts with e | vr
          · simp [hfs, Except.map]
          · rcases hfs2 : runFields cmdName cv subFlag subParse fs2 (i + 1 + fs.length) vr.2
              with e2 | vr2 <;> simp [hfs, hfs2, Except.map]
    | restRequired =>
      cases toks with
      | nil => simp [runFields]
      | cons t ts =>
        simp only [List.cons_append, runFields, List.append_eq, List.length_cons, hlen]
        cases collectRest cmdName name subFlag subParse (cv i) (t :: ts) with
        | error e => simp
        | ok v =>
          simp only [ih]
          rcases hfs : runFields cmdName cv subFlag subParse fs (i + 1) [] with e | vr
          · simp [hfs, Except.map]
          · rcases hfs2 : runFields cmdName cv subFlag subParse fs2 (i + 1 + fs.length) vr.2
              with e2 | vr2 <;> simp [hfs, hfs2, Except.map]
    | restOptional =>
      simp only [List.cons_append, runFields, List.append_eq, List.length_cons, hlen]
      cases collectRest cmdName name subFlag subParse (cv i) toks with
      | error e => simp
      | ok v =>
        simp only [ih]
        rcases hfs : runFields cmdName cv subFlag subParse fs (i + 1) [] with e | vr
        · simp [hfs, Except.map]
        · rcases hfs2 : runFields cmdName cv subFlag subParse fs2 (i + 1 + fs.length) vr.2
            with e2 | vr2 <;> simp [hfs, hfs2, Except.map]

/-- C3: for a rest field not tagged Subcommand, once the earlier fields have
consumed their tokens: a RestRequired field with nothing left is a
MissingRequired for that argument; with N remaining tokens that all convert
the rest field is the ordered sequence of the N conversions; a failing token
makes the whole parse the single BadConvert error naming the rest argument;
and a RestOptional field with nothing left yields the empty sequence. -/
theorem rest_collection {V : Type} (set : SetSpec) (root : TrieParts Nat) (k : Nat)
    (cv : Nat → Nat → String → Except String V)
    (sub : Nat → List String → Except CommandParseError V)
    (r idtok : String) (toks rem : List String) (vsE : List (FieldVal V)) (nE : Nat)
    (hsub : (set.getCmd k).subcommand = false)
    (hid : set.parseId root idtok = .ok k)
    (hnE : nE = (set.getCmd k).usage.required.length + (set.getCmd k).usage.optional.length)
    (hEarly : runFields (set.canonical k) (cv k) false (sub k)
        ((set.getCmd k).usage.required.map (fun n => (FieldMode.required, n)) ++
          (set.getCmd k).usage.optional.map (fun n => (FieldMode.optional, n))) 0 toks =
      .ok (vsE, rem)) :
    ((set.getCmd k).usage.rest = RestArg.required r →
      (rem = [] →
        set.parse root cv sub (Option.some idtok :: toks.map Option.some) =
          .error (.missingRequired ⟨set.canonical k, r⟩)) ∧
      (rem ≠ [] → (∀ t ∈ rem, ∃ v, cv k nE t = .ok v) →
        ∃ vs, set.parse root cv sub (Option.some idtok :: toks.map Option.some) =
            .ok (k, vsE ++ [.rest vs]) ∧ vs.length = rem.length ∧
          ∀ j, ∀ h1 : j < rem.length, ∀ h2 : j < vs.length,
            cv k nE (rem.get ⟨j, h1⟩) = .ok (vs.get ⟨j, h2⟩)) ∧
      (∀ pre bad post e, rem = pre ++ bad :: post →
        (∀ t ∈ pre, ∃ v, cv k nE t = .ok v) → cv k nE bad = .error e →
        set.parse root cv sub (Option.some idtok :: toks.map Option.some) =
          .error (.badConvert ⟨set.canonical k, r⟩ e))) ∧
    ((set.getCmd k).usage.rest = RestArg.optional r → rem = [] →
      set.parse root cv sub (Option.some idtok :: toks.map Option.some) =
        .ok (k, vsE ++ [.rest []])) := by
  have hfuse : fuse (Option.some idtok :: toks.map Option.some) = idtok :: toks := by
    simp [fuse, fuse_map_some]
  have hparse : set.parse root cv sub (Option.some idtok :: toks.map Option.some) =
      set.parseCmd k cv sub toks := by
    simp [SetSpec.parse, hfuse, hid]
  have hlenE : ((set.getCmd k).usage.required.map (fun n => (FieldMode.required, n)) ++
      (set.getCmd k).usage.optional.map (fun n => (FieldMode.optional, n))).length = nE := by
    simp [hnE]
  constructor
  · intro hrest
    have hfi : fieldInfos (set.getCmd k).usage =
        ((set.getCmd k).usage.required.map (fun n => (FieldMode.required, n)) ++
          (set.getCmd k).usage.optional.map (fun n => (FieldMode.optional, n))) ++
          [(FieldMode.restRequired, r)] := by
      simp [fieldInfos, hrest, List.append_assoc]
    have hrun : ∀ res,
        runFields (set.canonical k) (cv k) false (sub k) [(FieldMode.restRequired, r)] nE rem =
          res →
        runFields (set.canonical k) (cv k) false (sub k) (fieldInfos (set.getCmd k).usage) 0
            toks = res.map (fun vr => (vsE ++ vr.1, vr.2)) := by
      intro res hres
      rw [hfi, runFields_append, hEarly, Nat.zero_add, hlenE]
      exact congrArg (Except.map fun vr => (vsE ++ vr.1, vr.2)) hres
    refine ⟨?_, ?_, ?_⟩
    · intro hrem
      subst hrem
      have h0 := hrun (.error (.missingRequired ⟨set.canonical k, r⟩)) (by simp [runFields])
      rw [hparse]
      simp [SetSpec.parseCmd, hsub, h0, hrest, Except.map]
    · intro hne hall
      obtain ⟨vs, hvs, hlen, hpt⟩ := convertAll_spec ⟨set.canonical k, r⟩ (cv k nE) rem hall
      refine ⟨vs, ?_, hlen, hpt⟩
      obtain ⟨t, ts, hrem⟩ := List.exists_cons_of_ne_nil hne
      have h0 : runFields (set.canonical k) (cv k) false (sub k)
          [(FieldMode.restRequired, r)] nE rem = .ok ([.rest vs], []) := by
        rw [hrem]
        rw [hrem] at hvs
        simp [runFields, collectRest, hvs, Except.map]
      have h1 := hrun _ h0
      rw [hparse]
      simp [SetSpec.parseCmd, hsub, h1, hrest, Except.map]
    · intro pre bad post e hrem hpre hbad
      have hca : convertAll ⟨set.canonical k, r⟩ (cv k nE) rem =
          .error (.badConvert ⟨set.canonical k, r⟩ e) := by
        rw [hrem]; exact convertAll_err _ _ bad e post hbad pre hpre
      have h0 : runFields (set.canonical k) (cv k) false (sub k)
          [(FieldMode.restRequired, r)] nE rem =
          .error (.badConvert ⟨set.canonical k, r⟩ e) := by
        rcases hrem2 : rem with _ | ⟨t, ts⟩
        · rw [hrem2] at hrem
          simp at hrem
        · rw [hrem2] at hca
          simp [runFields, collectRest, hca, Except.map]
      have h1 := hrun _ h0
      rw [hparse]
      simp [SetSpec.parseCmd, hsub, h1, hrest, Except.map]
  · intro hrest hrem
    subst hrem
    have hfi : fieldInfos (set.getCmd k).usage =
        ((set.getCmd k).usage.required.map (fun n => (FieldMode.required, n)) ++
          (set.getCmd k).usage.optional.map (fun n => (FieldMode.optional, n))) ++
          [(FieldMode.restOptional, r)] := by
      simp [fieldInfos, hrest, List.append_assoc]
    have h0 : runFields (set.canonical k) (cv k) false (sub k) (fieldInfos (set.getCmd k).usage)
        0 toks = .ok (vsE ++ [.rest []], []) := by
      rw [hfi, runFields_append, hEarly, Nat.zero_add, hlenE]
      simp [runFields, collectRest, convertAll, Except.map]
    rw [hparse]
    simp [SetSpec.parseCmd, hsub, h0, hrest, Except.map]

/-- Witness for the rest-collection theorem: the concrete command go with a
required argument and a required rest field, applied to three rest tokens. -/
theorem rest_collection_witness :
    ∃ vs, wRestSet.parse wRestRoot (fun _ _ t => .ok t) (fun _ _ => .error .noInput)
        [Option.some "go", Option.some "x", Option.some "r1", Option.some "r2",
          Option.some "r3"] =
      .ok (0, [FieldVal.one "x", FieldVal.rest vs]) ∧ vs.length = 3 := by
  have h := rest_collection (V := String) wRestSet wRestRoot 0
    (fun _ _ t => .ok t) (fun _ _ => .error .noInput) "r" "go"
    ["x", "r1", "r2", "r3"] ["r1", "r2", "r3"] [FieldVal.one "x"] 1
    (by rfl) (by rfl) (by rfl) (by rfl)
  obtain ⟨vs, hp, hlen, _⟩ := (h.1 (by rfl)).2.1 (by simp)
    (fun t _ => ⟨t, rfl⟩)
  exact ⟨vs, by simpa using hp, by simpa using hlen⟩

/-- C5: on the code that exists, CommandPath::parse of an identifier path
type applied to an empty token sequence returns Incomplete with every valid
name, and parse_opt returns Ok(None) exactly on Incomplete, forwarding every
other outcome unchanged.  (The OTHER generated implementation, for path
types with subcommands, names the nonexistent variant PathParseError::NoInput
and cannot compile; see the C5 entry of the results.) -/
theorem path_parse_incomplete (set : SetSpec) (root : TrieParts Nat) :
    set.idPathParse root [] = .error (.incomplete set.names) ∧
    ∀ r : Except PathParseError Nat,
      (pathParseOpt r = .ok Option.none ↔ ∃ av, r = .error (.incomplete av)) ∧
      (∀ p, pathParseOpt r = .ok (Option.some p) ↔ r = .ok p) ∧
      (∀ e, pathParseOpt r = .error e ↔ r = .error e ∧ ∀ av, e ≠ .incomplete av) := by
  refine ⟨rfl, fun r => ⟨?_, ?_, ?_⟩⟩
  · rcases r with e | p
    · cases e <;> simp [pathParseOpt]
    · simp [pathParseOpt]
  · intro p
    rcases r with e | q
    · cases e <;> simp [pathParseOpt]
    · simp [pathParseOpt]
  · intro e
    rcases r with e' | p
    · cases e' <;> cases e <;> simp [pathParseOpt]
    · simp [pathParseOpt]

/-- Witness for the path-parse theorem at the concrete set wSet. -/
theorem path_parse_incomplete_witness :
    wSet.idPathParse wRoot [] = .error (.incomplete ["push", "p"]) ∧
    pathParseOpt (wSet.idPathParse wRoot []) = .ok Option.none := by
  have h := path_parse_incomplete wSet wRoot
  exact ⟨h.1, ((h.2 (wSet.idPathParse wRoot [])).1).2 ⟨["push", "p"], h.1⟩⟩

theorem helpAt_of_no_sub (u : UsageModel) (d : DescM) (n : HelpSubOpt) :
    ∀ (cmds : HelpCmds) (k : Nat), Help.anySub cmds = false →
    Help.cmdsGet cmds k = Option.some (.mk u d n) →
    n = .none ∧ Help.helpAt cmds k Option.none = Option.some (.command u d)
  | .nil, k => by
    intro _ hk
    cases k <;> simp [Help.cmdsGet] at hk
  | .cons (.mk u' d' (.some hs)) rest, k => by
    intro hns _
    simp [Help.anySub] at hns
  | .cons (.mk u' d' .none) rest, k => by
    intro hns hk
    rw [Help.anySub] at hns
    cases k with
    | zero =>
      rw [Help.cmdsGet] at hk
      obtain ⟨hu, hd, hn⟩ : u' = u ∧ d' = d ∧ HelpSubOpt.none = n := by
        cases hk
        exact ⟨rfl, rfl, rfl⟩
      subst hu; subst hd
      exact ⟨hn.symm, by rw [Help.helpAt]⟩
    | succ k' =>
      rw [Help.cmdsGet] at hk
      obtain ⟨hn, hh⟩ := helpAt_of_no_sub u d n rest k' hns hk
      exact ⟨hn, by rw [Help.helpAt]; exact hh⟩

/-- C6 amended: for a command set in which no command is tagged subcommand
(the only case in which the derived From impl for the path type is not the
unimplemented todo panic), help(None) is the static CommandSet topic of the
set, and for every declared command the path obtained from its identifier
yields that command's Command topic, whose usage ids contain the canonical
first-listed name. -/
theorem help_topics (summary : Option String) (cmds : HelpCmds)
    (hns : Help.anySub cmds = false) :
    Help.help (.mk summary cmds) Option.none =
      Option.some (.commandSet summary (Help.usages cmds)) ∧
    ∀ k u d n, Help.cmdsGet cmds k = Option.some (.mk u d n) → u.ids ≠ [] →
      ∃ p, Help.fromId (.mk summary cmds) k = Option.some p ∧
        Help.help (.mk summary cmds) (Option.some p) = Option.some (.command u d) ∧
        u.ids.headD "" ∈ u.ids := by
  refine ⟨rfl, fun k u d n hk hids => ?_⟩
  refine ⟨.node k Option.none, by simp [Help.fromId, hns], ?_, ?_⟩
  · rw [Help.help]
    exact (helpAt_of_no_sub u d n cmds k hns hk).2
  · rcases h : u.ids with _ | ⟨i, is⟩
    · exact absurd h hids
    · simp

/-- Witness for the help theorem at the concrete two-command help set. -/
theorem help_topics_witness :
    ∃ p, Help.fromId (.mk (Option.some "sum") wHelpCmds) 0 = Option.some p ∧
      Help.help (.mk (Option.some "sum") wHelpCmds) (Option.some p) =
        Option.some (.command wUsage emptyDesc) ∧
      wUsage.ids.headD "" ∈ wUsage.ids := by
  exact (help_topics (Option.some "sum") wHelpCmds (by rfl)).2 0 wUsage emptyDesc .none
    (by rfl) (by simp [wUsage])

/-- C6 counterexample: in a command set whose command is tagged subcommand,
the command is declared (index 0 exists), but no path at all can be obtained
from its identifier: the derived From impl is todo!(), a panic, so
help(Some(Path::from(X))) cannot return a Command topic. -/
theorem help_from_id_counterexample :
    (∃ c, Help.cmdsGet (Help.cmdsOf cexHelpSet) 0 = Option.some c) ∧
    ¬ ∃ p, Help.fromId cexHelpSet 0 = Option.some p := by
  constructor
  · exact ⟨_, rfl⟩
  · rintro ⟨p, hp⟩
    simp [Help.fromId, Help.anySub, cexHelpSet, subHelpSet] at hp

/-- No newline survives relax_lines: every whitespace run containing a
newline is collapsed to a single space, and a newline is whitespace. -/
theorem relax_lines_no_newline (s : String) : '\n' ∉ (Docs.relax_lines s).data := by
  have hflush : ∀ buf : List Char, '\n' ∉ Docs.flushWs buf := by
    intro buf
    rw [Docs.flushWs]
    by_cases h : '\n' ∈ buf
    · simp [h]
    · simp [h]
  have main : ∀ (cs buf : List Char), '\n' ∉ Docs.relaxLoop buf cs := by
    intro cs
    induction cs with
    | nil => intro buf; exact hflush buf
    | cons c cs ih =>
      intro buf
      rw [Docs.relaxLoop]
      by_cases hws : c.isWhitespace
      · simpa [hws] using ih (c :: buf)
      · simp only [hws, Bool.false_eq_true, ite_false, List.mem_append, List.mem_cons]
        rintro (h | h | h)
        · exact hflush buf h
        · exact hws (h ▸ rfl)
        · exact ih [] h
  exact main _ _

theorem sectionsLoop_shape (u : UsageModel) :
    ∀ (fuel : Nat) (docs : List String) (s : Option String)
      (a : Option (List (String × Bool × String))) (e : Option String) out,
    Docs.sectionsLoop u fuel docs s a e = .ok out →
    (out.2.2 = e ∨ ∃ b, out.2.2 = Option.some (Docs.relax_lines b)) ∧
    (out.1 = s ∨ ∃ b, out.1 = Option.some (Docs.relax_lines b)) := by
  intro fuel
  induction fuel with
  | zero =>
    intro docs s a e out h
    rw [Docs.sectionsLoop] at h
    cases h
    exact ⟨Or.inl rfl, Or.inl rfl⟩
  | succ fuel ih =>
    intro docs s a e out h
    rw [Docs.sectionsLoop] at h
    split at h
    · cases h
      exact ⟨Or.inl rfl, Or.inl rfl⟩
    · split at h
      · cases h
      · split at h
        · split at h
          · cases h
          · obtain ⟨h1, h2⟩ := ih _ _ _ _ out h
            refine ⟨h1, ?_⟩
            rcases h2 with h2 | h2
            · exact Or.inr ⟨_, h2⟩
            · exact Or.inr h2
        · split at h
          · split at h
            · cases h
            · split at h
              · cases h
              · exact ih _ _ _ _ out h
          · split at h
            · split at h
              · cases h
              · obtain ⟨h1, h2⟩ := ih _ _ _ _ out h
                refine ⟨?_, h2⟩
                rcases h1 with h1 | h1
                · exact Or.inr ⟨_, h1⟩
                · exact Or.inr h1
            · exact ih _ _ _ _ out h

/-- C7 amended: the text of an examples section is line-collapsed by
relax_lines exactly as the summary section is; in particular no stored
examples or summary text ever contains a newline. -/
theorem examples_line_collapsed (docs : List String) (r : Docs.CommandDocsM)
    (h : Docs.parse_docs docs = .ok r) :
    (∀ s, r.examples = Option.some s → '\n' ∉ s.data) ∧
    (∀ s, r.summary = Option.some s → '\n' ∉ s.data) := by
  have main : ∀ (summary : Option String) (args : Option (List (String × Bool × String)))
      (examples : Option String) (u : UsageModel),
      Docs.sectionsLoop u docs.length (Docs.take_paragraph docs false).2
        Option.none Option.none Option.none = .ok (summary, args, examples) →
      r.examples = examples → r.summary = summary →
      (∀ s, r.examples = Option.some s → '\n' ∉ s.data) ∧
      (∀ s, r.summary = Option.some s → '\n' ∉ s.data) := by
    intro summary args examples u hs hex hsum
    obtain ⟨h1, h2⟩ := sectionsLoop_shape u docs.length _ _ _ _ _ hs
    dsimp only at h1 h2
    constructor
    · intro s hrs
      rw [hex] at hrs
      rcases h1 with hx | ⟨b, hb⟩
      · rw [hx] at hrs; cases hrs
      · rw [hb] at hrs
        cases hrs
        exact relax_lines_no_newline b
    · intro s hrs
      rw [hsum] at hrs
      rcases h2 with hx | ⟨b, hb⟩
      · rw [hx] at hrs; cases hrs
      · rw [hb] at hrs
        cases hrs
        exact relax_lines_no_newline b
  have hsec : ∃ u s a e,
      Docs.sectionsLoop u docs.length (Docs.take_paragraph docs false).2
        Option.none Option.none Option.none = .ok (s, a, e) ∧
      r.summary = s ∧ r.examples = e := by
    rw [Docs.parse_docs] at h
    repeat' split at h
    all_goals cases h
    all_goals exact ⟨_, _, _, _, by assumption, rfl, rfl⟩
  obtain ⟨u, s0, a0, e0, hs, hsum, hex⟩ := hsec
  exact main s0 a0 e0 u hs hex hsum

/-- Witness for the line-collapsing theorem at the concrete cexDocs. -/
theorem examples_line_collapsed_witness :
    ∃ r, Docs.parse_docs cexDocs = .ok r ∧ ∀ s, r.examples = Option.some s → '\n' ∉ s.data :=
  ⟨⟨⟨["cmd"], [], [], RestArg.none, "A description."⟩, Option.none, [],
      Option.some "line one line two"⟩, by rfl,
    (examples_line_collapsed cexDocs _ (by rfl)).1⟩

/-- C7 counterexample: the examples paragraph "line one" + newline +
"line two" is stored with its newline replaced by a space, not as raw text:
the claim that newlines are preserved fails on this input. -/
theorem examples_collapsed_counterexample :
    (Docs.parse_docs cexDocs).map (fun d => d.examples) =
      .ok (Option.some "line one line two") ∧
    ("line one line two" : String) ≠ "line one\nline two" := by
  exact ⟨by rfl, by decide⟩

theorem takeWhile_append_stop (p : Char → Bool) (c : Char) (l2 : List Char)
    (hc : p c = false) :
    ∀ l1 : List Char, (∀ x ∈ l1, p x = true) →
    (l1 ++ c :: l2).takeWhile p = l1 ∧ (l1 ++ c :: l2).dropWhile p = c :: l2 := by
  intro l1
  induction l1 with
  | nil => intro _; simp [List.takeWhile, List.dropWhile, hc]
  | cons x xs ih =>
    intro hmem
    have hx := hmem x (List.mem_cons_self x xs)
    obtain ⟨h1, h2⟩ := ih (fun y hy => hmem y (List.mem_cons_of_mem x hy))
    simp [List.takeWhile, List.dropWhile, hx, h1, h2]

/-- C8 amended: a required token in angle brackets (and likewise an optional
token in square brackets) is accepted exactly for a name of at most two
characters, or a name none of whose final three characters is a literal
period; in particular a long name is rejected whenever a period occurs among
its last three characters, not only when it is the final character. -/
theorem usage_name_guard (name : String) (suffix : List Char)
    (hgt : ¬ '>' ∈ name.data) (hsq : ¬ ']' ∈ name.data) :
    (Docs.argToken '<' '>' ('<' :: name.data ++ '>' :: suffix) =
      (if Docs.argNameOk name.data then Option.some (name, suffix) else Option.none)) ∧
    (Docs.argToken '[' ']' ('[' :: name.data ++ ']' :: suffix) =
      (if Docs.argNameOk name.data then Option.some (name, suffix) else Option.none)) ∧
    (Docs.argNameOk name.data = true ↔ name.data.length ≤ 2 ∨
      (3 ≤ name.data.length ∧
        ∀ c ∈ name.data.drop (name.data.length - 3), c ≠ '.')) := by
  have he : (⟨name.data⟩ : String) = name := rfl
  refine ⟨?_, ?_, ?_⟩
  · obtain ⟨ht, hd⟩ := takeWhile_append_stop (fun x => x ≠ '>') '>' suffix (by simp)
      name.data (fun x hx => decide_eq_true (fun h => hgt (h ▸ hx)))
    have hu : Docs.argToken '<' '>' ('<' :: name.data ++ '>' :: suffix) =
        Docs.argTokenCore '<' '>' ('<' :: (name.data ++ '>' :: suffix)) := rfl
    rw [hu, Docs.argTokenCore, ht, hd]
    by_cases hn : Docs.argNameOk name.data
    · rw [if_pos hn, if_pos rfl, if_neg (by simp), if_pos hn, he]
      rfl
    · rw [if_neg hn, if_pos rfl, if_neg (by simp), if_neg hn]
  · obtain ⟨ht, hd⟩ := takeWhile_append_stop (fun x => x ≠ ']') ']' suffix (by simp)
      name.data (fun x hx => decide_eq_true (fun h => hsq (h ▸ hx)))
    have hu : Docs.argToken '[' ']' ('[' :: name.data ++ ']' :: suffix) =
        Docs.argTokenCore '[' ']' ('[' :: (name.data ++ ']' :: suffix)) := rfl
    rw [hu, Docs.argTokenCore, ht, hd]
    by_cases hn : Docs.argNameOk name.data
    · rw [if_pos hn, if_pos rfl, if_neg (by simp), if_pos hn, he]
      rfl
    · rw [if_neg hn, if_pos rfl, if_neg (by simp), if_neg hn]
  · simp [Docs.argNameOk, List.all_eq_true]

/-- Witness for the name-guard theorem: abc is accepted as a required
token, and the guard characterization holds for it. -/
theorem usage_name_guard_witness :
    Docs.argToken '<' '>' ('<' :: "abc".data ++ '>' :: []) = Option.some ("abc", []) := by
  have h := (usage_name_guard "abc" [] (by decide) (by decide)).1
  simpa using h

/-- C8 counterexample: the name a.bc is longer than two characters and does
not end in a period, yet the required-token pattern rejects it (a period
among the last three characters suffices for rejection). -/
theorem usage_name_guard_counterexample :
    Docs.argToken '<' '>' "<a.bc>".data = Option.none ∧
    ("a.bc".length ≤ 2 ∨ "a.bc".data.getLast? ≠ Option.some '.') := by
  exact ⟨by rfl, Or.inr (by decide)⟩

theorem sorted_takeWhile_eq_filter :
    ∀ l : List (ℚ × String), l.Sorted Dym.dymRel →
    l.takeWhile (fun x => decide ((3 : ℚ) / 10 ≤ x.1)) =
      l.filter (fun x => decide ((3 : ℚ) / 10 ≤ x.1)) := by
  intro l
  induction l with
  | nil => intro _; rfl
  | cons a l ih =>
    intro h
    rw [List.takeWhile_cons, List.filter_cons]
    by_cases ha : (3 : ℚ) / 10 ≤ a.1
    · simp [ha, ih h.of_cons]
    · have hall : ∀ b ∈ l, ¬ (3 : ℚ) / 10 ≤ b.1 := by
        intro b hb hle
        rcases List.rel_of_sorted_cons h b hb with hlt | ⟨heq, _⟩
        · exact ha (hle.trans hlt.le)
        · exact ha (heq ▸ hle)
      have hfil : l.filter (fun x => decide ((3 : ℚ) / 10 ≤ x.1)) = [] :=
        List.filter_eq_nil_iff.2 (fun b hb => by simpa using hall b hb)
      simp [ha, hfil]

theorem sorted_ge_map (f : String → ℚ) :
    ∀ l : List (ℚ × String), l.Sorted Dym.dymRel → (∀ x ∈ l, f x.2 = x.1) →
    (l.map (fun x => f x.2)).Sorted (fun a b => a ≥ b) := by
  intro l h hf
  rw [List.Sorted, List.pairwise_map]
  refine h.imp_of_mem ?_
  intro a b ha hb hab
  rw [hf _ ha, hf _ hb]
  rcases hab with h' | ⟨h', _⟩
  · exact h'.le
  · exact h'.ge

/-- C9: did_you_mean yields exactly those candidates whose normalized
Damerau-Levenshtein similarity to the given string, computed against the
candidate truncated to at most one character more than the given input, is
at least 0.3, ordered by non-increasing similarity (best first). -/
theorem did_you_mean_spec (given : String) (options : List String) :
    List.Perm (Dym.did_you_mean given options)
      (options.filter (fun o => decide ((3 : ℚ) / 10 ≤ Dym.similarity given.data o.data))) ∧
    ((Dym.did_you_mean given options).map
        (fun o => Dym.similarity given.data o.data)).Sorted (fun a b => a ≥ b) := by
  have hsorted : (List.insertionSort Dym.dymRel
      (options.map (fun o => (Dym.similarity given.data o.data, o)))).Sorted Dym.dymRel :=
    List.sorted_insertionSort Dym.dymRel _
  have htf := sorted_takeWhile_eq_filter _ hsorted
  constructor
  · rw [Dym.did_you_mean, htf]
    have hperm : List.Perm
        ((List.insertionSort Dym.dymRel
            (options.map (fun o => (Dym.similarity given.data o.data, o)))).filter
          (fun x => decide ((3 : ℚ) / 10 ≤ x.1)))
        ((options.map (fun o => (Dym.similarity given.data o.data, o))).filter
          (fun x => decide ((3 : ℚ) / 10 ≤ x.1))) :=
      (List.perm_insertionSort Dym.dymRel _).filter _
    refine (hperm.map (fun x => x.2)).trans ?_
    rw [List.filter_map, List.map_map]
    have : ((fun x : ℚ × String => x.2) ∘ fun o => (Dym.similarity given.data o.data, o)) =
        id := rfl
    rw [this, List.map_id]
    exact List.Perm.refl _
  · rw [Dym.did_you_mean, List.map_map]
    have hsub := List.takeWhile_sublist (l := List.insertionSort Dym.dymRel
      (options.map (fun o => (Dym.similarity given.data o.data, o))))
      (fun x => decide ((3 : ℚ) / 10 ≤ x.1))
    have hsorted2 : (List.takeWhile (fun x => decide ((3 : ℚ) / 10 ≤ x.1))
        (List.insertionSort Dym.dymRel
          (options.map (fun o => (Dym.similarity given.data o.data, o))))).Sorted
        Dym.dymRel := hsorted.sublist hsub
    have hmem : ∀ x ∈ List.takeWhile (fun x => decide ((3 : ℚ) / 10 ≤ x.1))
        (List.insertionSort Dym.dymRel
          (options.map (fun o => (Dym.similarity given.data o.data, o)))),
        Dym.similarity given.data x.2.data = x.1 := by
      intro x hx
      have hx2 := (List.perm_insertionSort Dym.dymRel _).subset (hsub.subset hx)
      obtain ⟨o, _, ho⟩ := List.mem_map.1 hx2
      rw [← ho]
    exact sorted_ge_map (fun o => Dym.similarity given.data o.data) _ hsorted2 hmem

namespace Trie

variable {T : Type}

theorem keys_mk (p : Option (String × T)) (cs : Children T) :
    keys (.mk p cs) =
      (match p with
       | Option.some e => [([], e)]
       | Option.none => []) ++ keysL cs := rfl

theorem keysL_nil : keysL (T := T) .nil = [] := rfl

theorem keysL_cons (c : Char) (t : TrieParts T) (rest : Children T) :
    keysL (.cons c t rest) = (keys t).map (fun ke => (c :: ke.1, ke.2)) ++ keysL rest := rfl

theorem keys_cons_of_keysL (p : Option (String × T)) (cs cs' : Children T)
    (x : List Char × (String × T)) (h : List.Perm (keysL cs') (x :: keysL cs)) :
    List.Perm (keys (.mk p cs')) (x :: keys (.mk p cs)) := by
  rw [keys_mk, keys_mk]
  exact (h.append_left _).trans List.perm_middle

theorem keys_chainOf (e : String × T) : ∀ cs : List Char, keys (chainOf e cs) = [(cs, e)] := by
  intro cs
  induction cs with
  | nil => rfl
  | cons c cs ih => simp [chainOf, keys_mk, keysL_cons, keysL_nil, ih]

theorem keysL_replace_vacant (c : Char) (t0 : TrieParts T) :
    ∀ cs : Children T, findChild cs c = Option.none →
    keysL (replaceChild cs c t0) =
      keysL cs ++ (keys t0).map (fun ke => (c :: ke.1, ke.2))
  | .nil => by
    intro _
    simp [replaceChild, keysL_cons, keysL_nil]
  | .cons c' t rest => by
    intro hf
    rw [findChild] at hf
    by_cases hc : c' = c
    · rw [if_pos hc] at hf
      cases hf
    · rw [if_neg hc] at hf
      rw [replaceChild, if_neg hc, keysL_cons, keysL_replace_vacant c t0 rest hf, keysL_cons,
        List.append_assoc]

theorem replace_found (c : Char) :
    ∀ (cs : Children T) (child : TrieParts T), findChild cs c = Option.some child →
    ∀ t0 : TrieParts T, ∃ other,
      List.Perm (keysL cs) ((keys child).map (fun ke => (c :: ke.1, ke.2)) ++ other) ∧
      List.Perm (keysL (replaceChild cs c t0))
        ((keys t0).map (fun ke => (c :: ke.1, ke.2)) ++ other)
  | .nil => by
    intro child h
    rw [findChild] at h
    cases h
  | .cons c' t rest => by
    intro child h t0
    rw [findChild] at h
    by_cases hc : c' = c
    · rw [if_pos hc] at h
      cases h
      subst hc
      refine ⟨keysL rest, ?_, ?_⟩
      · rw [keysL_cons]
      · rw [replaceChild, if_pos rfl, keysL_cons]
    · rw [if_neg hc] at h
      obtain ⟨other, h1, h2⟩ := replace_found c rest child h t0
      have flip : ∀ (a b o : List (List Char × (String × T))),
          List.Perm (a ++ (b ++ o)) (b ++ (a ++ o)) := by
        intro a b o
        rw [← List.append_assoc, ← List.append_assoc]
        exact List.perm_append_comm.append_right o
      refine ⟨(keys t).map (fun ke => (c' :: ke.1, ke.2)) ++ other, ?_, ?_⟩
      · rw [keysL_cons]
        exact ((h1.append_left _).trans (flip _ _ _))
      · rw [replaceChild, if_neg hc, keysL_cons]
        exact ((h2.append_left _).trans (flip _ _ _))

theorem insert_keys (e : String × T) :
    ∀ (path : List Char) (t t' : TrieParts T), insertPayload t e path = .ok t' →
    List.Perm (keys t') ((path, e) :: keys t) := by
  intro path
  induction path with
  | nil =>
    intro t t' h
    obtain ⟨p, cs⟩ := t
    cases p with
    | some e' => cases h
    | none =>
      have h2 : Except.ok (ε := String) (TrieParts.mk (Option.some e) cs) = .ok t' := h
      cases h2
      rw [keys_mk, keys_mk]
      exact List.Perm.refl _
  | cons c rest ih =>
    intro t t' h
    obtain ⟨p, cs⟩ := t
    have h0 : (match findChild cs c with
        | Option.none => Except.ok (TrieParts.mk p (replaceChild cs c (chainOf e rest)))
        | Option.some child =>
          (insertPayload child e rest).map
            (fun child' => TrieParts.mk p (replaceChild cs c child'))) =
        Except.ok t' := h
    rcases hf : findChild cs c with _ | child
    · rw [hf] at h0
      cases h0
      refine keys_cons_of_keysL p cs _ _ ?_
      rw [keysL_replace_vacant c _ cs hf, keys_chainOf]
      simp only [List.map_cons, List.map_nil]
      exact List.perm_append_singleton _ _
    · have h2 : (insertPayload child e rest).map
          (fun child' => TrieParts.mk p (replaceChild cs c child')) = .ok t' := by
        rw [hf] at h0
        exact h0
      rcases hins : insertPayload child e rest with e' | child'
      · rw [hins] at h2
        cases h2
      · rw [hins] at h2
        cases h2
        obtain ⟨other, h1, h2⟩ := replace_found c cs child hf child'
        have hmap : List.Perm ((keys child').map (fun ke => (c :: ke.1, ke.2)))
            ((c :: rest, e) :: (keys child).map (fun ke => (c :: ke.1, ke.2))) := by
          simpa using (ih child child' hins).map (fun ke => (c :: ke.1, ke.2))
        refine keys_cons_of_keysL p cs _ _ ?_
        refine h2.trans ((hmap.append_right other).trans ?_)
        rw [List.cons_append]
        exact (h1.symm.cons _)

theorem wfP_mk (p : Option (String × T)) (cs : Children T) :
    wfP (.mk p cs) = (nodupChars cs && wfC cs) := rfl

theorem nodupChars_cons (c : Char) (t : TrieParts T) (rest : Children T) :
    nodupChars (.cons c t rest) = (!hasChar rest c && nodupChars rest) := rfl

theorem wfC_cons (c : Char) (t : TrieParts T) (rest : Children T) :
    wfC (.cons c t rest) = (wfP t && wfC rest) := rfl

theorem cands_some (e : String × T) (cs : Children T) : cands (.mk (Option.some e) cs) = [e] :=
  rfl

theorem cands_none (cs : Children T) : cands (.mk Option.none cs) = candsL cs := rfl

theorem candsL_cons (c : Char) (t : TrieParts T) (rest : Children T) :
    candsL (.cons c t rest) = cands t ++ candsL rest := rfl

theorem wfP_chain (e : String × T) : ∀ cs : List Char, wfP (chainOf e cs) = true := by
  intro cs
  induction cs with
  | nil => rfl
  | cons c cs ih => simp [chainOf, wfP_mk, nodupChars_cons, wfC_cons, hasChar, nodupChars,
      wfC, ih]

theorem hasChar_replace (c : Char) (t0 : TrieParts T) (c' : Char) :
    ∀ cs : Children T,
    hasChar (replaceChild cs c t0) c' = (hasChar cs c' || decide (c = c'))
  | .nil => by simp [replaceChild, hasChar]
  | .cons c1 t rest => by
    by_cases hc : c1 = c
    · rw [replaceChild, if_pos hc, hasChar, hasChar, hc]
      cases h1 : decide (c = c') <;> cases h2 : hasChar rest c' <;> simp [h1, h2]
    · rw [replaceChild, if_neg hc, hasChar, hasChar, hasChar_replace c t0 c' rest,
        Bool.or_assoc]

theorem nodup_replace (c : Char) (t0 : TrieParts T) :
    ∀ cs : Children T, nodupChars cs = true → nodupChars (replaceChild cs c t0) = true
  | .nil => by
    intro _
    simp [replaceChild, nodupChars_cons, nodupChars, hasChar]
  | .cons c1 t rest => by
    intro h
    rw [nodupChars_cons, Bool.and_eq_true] at h
    by_cases hc : c1 = c
    · rw [replaceChild, if_pos hc, nodupChars_cons, h.1, h.2]
      rfl
    · rw [replaceChild, if_neg hc, nodupChars_cons, hasChar_replace,
        nodup_replace c t0 rest h.2]
      have hnc : decide (c = c1) = false := by
        simp
        exact fun h' => hc h'.symm
      rw [hnc]
      simp [h.1]

theorem wfC_replace (c : Char) (t0 : TrieParts T) (h0 : wfP t0 = true) :
    ∀ cs : Children T, wfC cs = true → wfC (replaceChild cs c t0) = true
  | .nil => by
    intro _
    simp [replaceChild, wfC_cons, h0, wfC]
  | .cons c1 t rest => by
    intro h
    rw [wfC_cons, Bool.and_eq_true] at h
    by_cases hc : c1 = c
    · rw [replaceChild, if_pos hc, wfC_cons, h0, h.2]
      rfl
    · rw [replaceChild, if_neg hc, wfC_cons, h.1, wfC_replace c t0 h0 rest h.2]
      rfl

theorem findChild_wfP (c : Char) :
    ∀ (cs : Children T) (child : TrieParts T), findChild cs c = Option.some child →
    wfC cs = true → wfP child = true
  | .nil => by
    intro child h _
    rw [findChild] at h
    cases h
  | .cons c1 t rest => by
    intro child h hw
    rw [wfC_cons, Bool.and_eq_true] at hw
    rw [findChild] at h
    by_cases hc : c1 = c
    · rw [if_pos hc] at h
      cases h
      exact hw.1
    · rw [if_neg hc] at h
      exact findChild_wfP c rest child h hw.2

theorem insert_wf (e : String × T) :
    ∀ (path : List Char) (t t' : TrieParts T), insertPayload t e path = .ok t' →
    wfP t = true → wfP t' = true := by
  intro path
  induction path with
  | nil =>
    intro t t' h hw
    obtain ⟨p, cs⟩ := t
    cases p with
    | some e' => cases h
    | none =>
      have h2 : Except.ok (ε := String) (TrieParts.mk (Option.some e) cs) = .ok t' := h
      cases h2
      exact hw
  | cons c rest ih =>
    intro t t' h hw
    obtain ⟨p, cs⟩ := t
    rw [wfP_mk, Bool.and_eq_true] at hw
    have h0 : (match findChild cs c with
        | Option.none => Except.ok (TrieParts.mk p (replaceChild cs c (chainOf e rest)))
        | Option.some child =>
          (insertPayload child e rest).map
            (fun child' => TrieParts.mk p (replaceChild cs c child'))) =
        Except.ok t' := h
    rcases hf : findChild cs c with _ | child
    · rw [hf] at h0
      cases h0
      rw [wfP_mk, Bool.and_eq_true]
      exact ⟨nodup_replace c _ cs hw.1, wfC_replace c _ (wfP_chain e rest) cs hw.2⟩
    · have h2 : (insertPayload child e rest).map
          (fun child' => TrieParts.mk p (replaceChild cs c child')) = .ok t' := by
        rw [hf] at h0
        exact h0
      rcases hins : insertPayload child e rest with e' | child'
      · rw [hins] at h2
        cases h2
      · rw [hins] at h2
        cases h2
        rw [wfP_mk, Bool.and_eq_true]
        have hwc := ih child child' hins (findChild_wfP c cs child hf hw.2)
        exact ⟨nodup_replace c _ cs hw.1, wfC_replace c _ hwc cs hw.2⟩

theorem build_fold (es : List (String × T)) :
    ∀ (t root : TrieParts T),
    List.foldlM (fun acc e => insertPayload acc e e.1.data) t es = .ok root →
    wfP t = true →
    wfP root = true ∧
      List.Perm (keys root) (es.map (fun e => (e.1.data, e)) ++ keys t) := by
  induction es with
  | nil =>
    intro t root h hw
    have h2 : Except.ok (ε := String) t = .ok root := h
    cases h2
    exact ⟨hw, by simp⟩
  | cons e rest ih =>
    intro t root h hw
    rw [List.foldlM_cons] at h
    rcases hins : insertPayload t e e.1.data with e' | t1
    · rw [hins] at h
      cases h
    · rw [hins] at h
      obtain ⟨hw1, hk1⟩ := ih t1 root h (insert_wf e e.1.data t t1 hins hw)
      refine ⟨hw1, ?_⟩
      have hk2 := insert_keys e e.1.data t t1 hins
      refine hk1.trans ?_
      refine ((hk2.append_left _).trans ?_)
      rw [List.map_cons, List.cons_append]
      exact List.perm_middle

theorem build_props (es : List (String × T)) (root : TrieParts T)
    (h : build es = .ok root) :
    wfP root = true ∧ List.Perm (keys root) (es.map (fun e => (e.1.data, e))) := by
  obtain ⟨hw, hk⟩ := build_fold es _ root h rfl
  exact ⟨hw, by simpa [keys_mk, keysL_nil] using hk⟩

theorem isPrefixOf_nil_left (l : List Char) : ([] : List Char).isPrefixOf l = true := by
  cases l <;> rfl

theorem isPrefixOf_cons_cons (c c' : Char) (s k : List Char) :
    (c :: s).isPrefixOf (c' :: k) = (c == c' && s.isPrefixOf k) := rfl

theorem isPrefixOf_cons_nil (c : Char) (s : List Char) :
    (c :: s).isPrefixOf ([] : List Char) = false := rfl

theorem stripPre_nil (l : List (List Char × (String × T))) : stripPre [] l = l := by
  induction l with
  | nil => rfl
  | cons ke l ih =>
    rw [stripPre, if_pos (isPrefixOf_nil_left ke.1)]
    simp [ih]

theorem stripPre_append (s : List Char) (l1 l2 : List (List Char × (String × T))) :
    stripPre s (l1 ++ l2) = stripPre s l1 ++ stripPre s l2 := by
  induction l1 with
  | nil => rfl
  | cons ke l ih =>
    rw [List.cons_append, stripPre, stripPre]
    by_cases hp : s.isPrefixOf ke.1
    · rw [if_pos hp, if_pos hp, ih, List.cons_append]
    · rw [if_neg hp, if_neg hp, ih]

theorem stripPre_map_prepend (c c' : Char) (s : List Char)
    (l : List (List Char × (String × T))) :
    stripPre (c :: s) (l.map (fun ke => (c' :: ke.1, ke.2))) =
      (if c' = c then stripPre s l else []) := by
  induction l with
  | nil =>
    by_cases hc : c' = c <;> simp [hc, stripPre]
  | cons ke l ih =>
    rw [List.map_cons, stripPre]
    by_cases hc : c' = c
    · subst hc
      rw [if_pos rfl] at *
      rw [stripPre]
      have hiff : ((c' :: s).isPrefixOf (c' :: ke.1)) = s.isPrefixOf ke.1 := by
        rw [isPrefixOf_cons_cons]
        simp
      by_cases hp : s.isPrefixOf ke.1
      · rw [show ((c' :: s).isPrefixOf (c' :: ke.1)) = true from hiff.trans hp,
          if_pos rfl, if_pos hp, ih]
        simp
      · rw [show ((c' :: s).isPrefixOf (c' :: ke.1)) = false from
          hiff.trans (Bool.eq_false_iff.2 hp), if_neg hp]
        simpa using ih
    · rw [if_neg hc] at *
      have hpf : ((c :: s).isPrefixOf (c' :: ke.1)) = false := by
        rw [isPrefixOf_cons_cons]
        have : (c == c') = false := by
          simp
          exact fun h => hc h.symm
        rw [this, Bool.false_and]
      rw [show ((c :: s).isPrefixOf (c' :: ke.1)) = false from hpf]
      simpa using ih

theorem stripPre_keysL_of_not_hasChar (c : Char) (s : List Char) :
    ∀ cs : Children T, hasChar cs c = false → stripPre (c :: s) (keysL cs) = []
  | .nil => by
    intro _
    rfl
  | .cons c1 t rest => by
    intro h
    rw [hasChar, Bool.or_eq_false_iff] at h
    have hc1 : ¬ c1 = c := by simpa using h.1
    rw [keysL_cons, stripPre_append, stripPre_map_prepend, if_neg hc1,
      stripPre_keysL_of_not_hasChar c s rest h.2, List.append_nil]

theorem stripPre_keysL (c : Char) (s : List Char) :
    ∀ cs : Children T, nodupChars cs = true →
    stripPre (c :: s) (keysL cs) =
      (match findChild cs c with
       | Option.none => []
       | Option.some child => stripPre s (keys child))
  | .nil => by
    intro _
    rfl
  | .cons c1 t rest => by
    intro h
    rw [nodupChars_cons, Bool.and_eq_true] at h
    rw [keysL_cons, stripPre_append, stripPre_map_prepend, findChild]
    by_cases hc : c1 = c
    · rw [if_pos hc, if_pos hc]
      subst hc
      have hno : hasChar rest c1 = false := by
        rcases hh : hasChar rest c1 with _ | _
        · rfl
        · rw [hh] at h
          simp at h
      rw [stripPre_keysL_of_not_hasChar c1 s rest hno, List.append_nil]
    · rw [if_neg hc, if_neg hc, List.nil_append]
      exact stripPre_keysL c s rest h.2

theorem stripPre_payload_part (c : Char) (s : List Char) (p : Option (String × T)) :
    stripPre (c :: s)
      (match p with
       | Option.some e => [([], e)]
       | Option.none => []) = [] := by
  cases p with
  | none => rfl
  | some e => rfl

theorem descend_strip :
    ∀ (s : List Char) (t : TrieParts T), wfP t = true →
    (descend t s = Option.none → stripPre s (keys t) = []) ∧
    (∀ t', descend t s = Option.some t' → keys t' = stripPre s (keys t) ∧ wfP t' = true) := by
  intro s
  induction s with
  | nil =>
    intro t hw
    constructor
    · intro h
      cases h
    · intro t' h
      have h2 : Option.some t = Option.some t' := h
      cases h2
      exact ⟨(stripPre_nil _).symm, hw⟩
  | cons c s' ih =>
    intro t hw
    obtain ⟨p, cs⟩ := t
    have hwc : nodupChars cs = true ∧ wfC cs = true := by
      rw [wfP_mk, Bool.and_eq_true] at hw
      exact hw
    have hstrip : stripPre (c :: s') (keys (TrieParts.mk p cs)) =
        (match findChild cs c with
         | Option.none => []
         | Option.some child => stripPre s' (keys child)) := by
      rw [keys_mk, stripPre_append, stripPre_payload_part, List.nil_append,
        stripPre_keysL c s' cs hwc.1]
    have hdes : descend (TrieParts.mk p cs) (c :: s') =
        (match findChild cs c with
         | Option.none => Option.none
         | Option.some child => descend child s') := rfl
    rcases hf : findChild cs c with _ | child
    · rw [hf] at hstrip hdes
      constructor
      · intro _
        exact hstrip
      · intro t' h
        rw [hdes] at h
        cases h
    · rw [hf] at hstrip hdes
      have hwchild := findChild_wfP c cs child hf hwc.2
      obtain ⟨ih1, ih2⟩ := ih child hwchild
      constructor
      · intro h
        rw [hdes] at h
        rw [hstrip]
        exact ih1 h
      · intro t' h
        rw [hdes] at h
        obtain ⟨hk, hw'⟩ := ih2 t' h
        rw [hstrip]
        exact ⟨hk, hw'⟩

theorem candsL_nil : candsL (T := T) .nil = [] := rfl

theorem isPrefixOf_self : ∀ l : List Char, l.isPrefixOf l = true
  | [] => rfl
  | c :: l => by
    rw [isPrefixOf_cons_cons, isPrefixOf_self l]
    simp

theorem stripPre_eq_filterMap (s : List Char) :
    ∀ l : List (List Char × (String × T)),
    stripPre s l = (l.filter fun ke => s.isPrefixOf ke.1).map
      fun ke => (ke.1.drop s.length, ke.2)
  | [] => rfl
  | ke :: l => by
    rw [stripPre, List.filter_cons]
    rcases hp : s.isPrefixOf ke.1 with _ | _
    · rw [if_neg (by simp [hp]), if_neg (by simp [hp])]
      exact stripPre_eq_filterMap s l
    · rw [if_pos rfl, if_pos rfl, List.map_cons, stripPre_eq_filterMap s l]

theorem stripPre_perm (s : List Char) (l1 l2 : List (List Char × (String × T)))
    (h : List.Perm l1 l2) : List.Perm (stripPre s l1) (stripPre s l2) := by
  rw [stripPre_eq_filterMap, stripPre_eq_filterMap]
  exact (h.filter _).map _

theorem stripPre_entries (s : List Char) :
    ∀ es : List (String × T),
    stripPre s (es.map fun e => (e.1.data, e)) =
      (extending es s).map fun e => (e.1.data.drop s.length, e)
  | [] => rfl
  | e :: es => by
    rw [List.map_cons, stripPre, extending, List.filter_cons]
    rcases hp : s.isPrefixOf e.1.data with _ | _
    · rw [if_neg (by simp [hp]), if_neg (by simp [hp]), stripPre_entries s es]
      rfl
    · rw [if_pos rfl, if_pos rfl, List.map_cons, stripPre_entries s es]
      rfl

mutual
/-- Every candidate the lexer sees at a node is an entry stored somewhere in
that node's subtree. -/
theorem cands_sub_keys : ∀ (t : TrieParts T), ∀ e ∈ cands t, ∃ k, (k, e) ∈ keys t
  | .mk (Option.some e') cs => by
    intro e he
    rw [cands_some] at he
    have he2 : e = e' := by simpa using he
    subst he2
    refine ⟨[], ?_⟩
    rw [keys_mk]
    exact List.mem_append_left _ (List.mem_singleton.2 rfl)
  | .mk Option.none cs => by
    intro e he
    rw [cands_none] at he
    obtain ⟨k, hk⟩ := candsL_sub_keysL cs e he
    refine ⟨k, ?_⟩
    rw [keys_mk]
    exact List.mem_append_right _ hk
/-- Children version of cands_sub_keys. -/
theorem candsL_sub_keysL : ∀ (cs : Children T), ∀ e ∈ candsL cs, ∃ k, (k, e) ∈ keysL cs
  | .nil => by
    intro e he
    rw [candsL_nil] at he
    exact absurd he (List.not_mem_nil e)
  | .cons c t rest => by
    intro e he
    rw [candsL_cons] at he
    rcases List.mem_append.1 he with h1 | h2
    · obtain ⟨k, hk⟩ := cands_sub_keys t e h1
      refine ⟨c :: k, ?_⟩
      rw [keysL_cons]
      exact List.mem_append_left _ (List.mem_map.2 ⟨(k, e), hk, rfl⟩)
    · obtain ⟨k, hk⟩ := candsL_sub_keysL rest e h2
      refine ⟨k, ?_⟩
      rw [keysL_cons]
      exact List.mem_append_right _ hk
end

mutual
/-- A node with no candidates stores no entries at all. -/
theorem keys_nil_of_cands_nil : ∀ t : TrieParts T, cands t = [] → keys t = []
  | .mk (Option.some e) cs => by
    intro h
    rw [cands_some] at h
    cases h
  | .mk Option.none cs => by
    intro h
    rw [cands_none] at h
    rw [keys_mk, keysL_nil_of_candsL_nil cs h]
    rfl
/-- Children version of keys_nil_of_cands_nil. -/
theorem keysL_nil_of_candsL_nil : ∀ cs : Children T, candsL cs = [] → keysL cs = []
  | .nil => fun _ => rfl
  | .cons c t rest => by
    intro h
    rw [candsL_cons, List.append_eq_nil] at h
    rw [keysL_cons, keys_nil_of_cands_nil t h.1, keysL_nil_of_candsL_nil rest h.2]
    rfl
end

/-- Every entry stored via a child edge has a non-empty path. -/
theorem keysL_ne_nil_fst : ∀ cs : Children T, ∀ ke ∈ keysL cs, ke.1 ≠ ([] : List Char)
  | .nil => by
    intro ke hke
    rw [keysL_nil] at hke
    exact absurd hke (List.not_mem_nil ke)
  | .cons c t rest => by
    intro ke hke
    rw [keysL_cons] at hke
    rcases List.mem_append.1 hke with h1 | h2
    · obtain ⟨ke', _, heq⟩ := List.mem_map.1 h1
      rw [← heq]
      simp
    · exact keysL_ne_nil_fst rest ke h2

/-- An entry stored at the node itself (empty residual path) is the node's
own payload: paths through children are never empty. -/
theorem payload_of_nil_key (p : Option (String × T)) (cs : Children T) (e : String × T)
    (h : (([] : List Char), e) ∈ keys (.mk p cs)) : p = Option.some e := by
  rw [keys_mk] at h
  rcases List.mem_append.1 h with h1 | h2
  · rcases p with _ | e'
    · exact absurd h1 (List.not_mem_nil _)
    · have h3 : (([] : List Char), e) ∈ [(([] : List Char), e')] := h1
      have h4 := List.mem_singleton.1 h3
      have h5 : e = e' := congrArg Prod.snd h4
      rw [h5]
  · exact absurd rfl (keysL_ne_nil_fst cs ([], e) h2)

theorem resolveAmbiguous_cons [DecidableEq T] (n : String) (p : T)
    (rest : List (String × T)) :
    resolveAmbiguous ((n, p) :: rest) =
      (if rest.all (fun e => e.2 = p) then Option.some p else Option.none) := rfl

/-- Input exhausted at a node with no candidates: NoMatch. -/
theorem lexNode_nil_noMatch [DecidableEq T] (orig : String) (names : List String)
    (t : TrieParts T) (hc : cands t = []) :
    lexNode orig names t [] = .error (.noMatch orig names) := by
  unfold lexNode
  rw [hc]

/-- Input exhausted at a node with exactly one candidate: its payload. -/
theorem lexNode_nil_single [DecidableEq T] (orig : String) (names : List String)
    (t : TrieParts T) (n : String) (p : T) (hc : cands t = [(n, p)]) :
    lexNode orig names t [] = .ok p := by
  unfold lexNode
  rw [hc]

/-- Input exhausted at a node with at least two candidates which the
ambiguity-resolution predicate resolves: success with the resolved payload. -/
theorem lexNode_nil_resolved [DecidableEq T] (orig : String) (names : List String)
    (t : TrieParts T) (n1 n2 : String) (p1 p2 : T) (rest : List (String × T))
    (r : T)
    (hc : cands t = (n1, p1) :: (n2, p2) :: rest)
    (hres : resolveAmbiguous ((n1, p1) :: (n2, p2) :: rest) = Option.some r) :
    lexNode orig names t [] = .ok r := by
  unfold lexNode
  rw [hc]
  show (match resolveAmbiguous ((n1, p1) :: (n2, p2) :: rest) with
        | Option.some r => Except.ok r
        | Option.none =>
          Except.error (IdParseError.ambiguous
            (((n1, p1) :: (n2, p2) :: rest).map fun e => e.1) orig)) = Except.ok r
  rw [hres]

/-- If every candidate at a node carries the same payload (and there is at
least one), exhausting the input there succeeds with that payload. -/
theorem lexNode_nil_ok [DecidableEq T] (orig : String) (names : List String)
    (t : TrieParts T) (k : T) (hne : cands t ≠ [])
    (hall : ∀ e ∈ cands t, e.2 = k) :
    lexNode orig names t [] = .ok k := by
  obtain ⟨l, hc⟩ : ∃ l, cands t = l := ⟨_, rfl⟩
  rw [hc] at hne hall
  rcases l with _ | ⟨⟨n, p⟩, _ | ⟨⟨n2, p2⟩, rest2⟩⟩
  · exact absurd rfl hne
  · have h1 : p = k := hall (n, p) (List.mem_singleton.2 rfl)
    rw [lexNode_nil_single orig names t n p hc, h1]
  · have h1 : p = k := hall (n, p) (List.mem_cons_self _ _)
    have hres : resolveAmbiguous ((n, p) :: (n2, p2) :: rest2) = Option.some p := by
      rw [resolveAmbiguous_cons, if_pos]
      rw [List.all_eq_true]
      intro e he
      have h3 := hall e (List.mem_cons_of_mem _ he)
      simp [h3, h1]
    rw [lexNode_nil_resolved orig names t n n2 p p2 rest2 p hc hres, h1]

/-- If the resolution predicate fails over at least two candidates,
exhausting the input there reports Ambiguous over the candidate names. -/
theorem lexNode_nil_ambiguous [DecidableEq T] (orig : String) (names : List String)
    (t : TrieParts T) (n1 n2 : String) (p1 p2 : T) (rest : List (String × T))
    (hc : cands t = (n1, p1) :: (n2, p2) :: rest)
    (hres : resolveAmbiguous ((n1, p1) :: (n2, p2) :: rest) = Option.none) :
    lexNode orig names t [] =
      .error (.ambiguous ((cands t).map fun e => e.1) orig) := by
  unfold lexNode
  rw [hc]
  show (match resolveAmbiguous ((n1, p1) :: (n2, p2) :: rest) with
        | Option.some r => Except.ok r
        | Option.none =>
          Except.error (IdParseError.ambiguous
            (((n1, p1) :: (n2, p2) :: rest).map fun e => e.1) orig)) =
      Except.error (IdParseError.ambiguous
        (((n1, p1) :: (n2, p2) :: rest).map fun e => e.1) orig)
  rw [hres]

theorem candidatesAt_eq (t : TrieParts T) (s : List Char) :
    candidatesAt t s =
      (match descend t s with
       | Option.none => []
       | Option.some t' => cands t') := rfl

/-- The lexer follows descend: a failed descent is NoMatch, a successful
one delegates to the reached node with the input exhausted. -/
theorem lexNode_descend [DecidableEq T] (orig : String) (names : List String) :
    ∀ (s : List Char) (t : TrieParts T),
    (descend t s = Option.none →
      lexNode orig names t s = .error (.noMatch orig names)) ∧
    (∀ t', descend t s = Option.some t' →
      lexNode orig names t s = lexNode orig names t' [])
  | [], t => by
    constructor
    · intro h
      cases h
    · intro t' h
      have h2 : Option.some t = Option.some t' := h
      cases h2
      rfl
  | c :: cs, t => by
    obtain ⟨p, ch⟩ := t
    have hdes : descend (TrieParts.mk p ch) (c :: cs) =
        (match findChild ch c with
         | Option.none => Option.none
         | Option.some child => descend child cs) := rfl
    have hlex : lexNode orig names (TrieParts.mk p ch) (c :: cs) =
        (match findChild ch c with
         | Option.none => Except.error (IdParseError.noMatch orig names)
         | Option.some child => lexNode orig names child cs) := rfl
    rcases hf : findChild ch c with _ | child
    · rw [hf] at hdes hlex
      constructor
      · intro _
        exact hlex
      · intro t' h
        rw [hdes] at h
        cases h
    · rw [hf] at hdes hlex
      obtain ⟨ih1, ih2⟩ := lexNode_descend orig names cs child
      constructor
      · intro h
        rw [hdes] at h
        rw [hlex]
        exact ih1 h
      · intro t' h
        rw [hdes] at h
        rw [hlex]
        exact ih2 t' h

end Trie

/-- Composite of the trie correctness stack, success side: if any entry
identifier extends the lowercased input, the lexer reaches a node whose
stored entries are exactly the extending entries with the input stripped,
whose candidate list is non-empty, and at which the parse is decided. -/
theorem parseId_reach (set : SetSpec) (root : TrieParts Nat)
    (hb : set.buildTrie = .ok root) (s : String)
    (hne : Trie.extending set.entries (lowercase s).data ≠ []) :
    ∃ t', Trie.descend root (lowercase s).data = Option.some t' ∧
      List.Perm (Trie.keys t')
        ((Trie.extending set.entries (lowercase s).data).map
          (fun e => (e.1.data.drop (lowercase s).data.length, e))) ∧
      Trie.cands t' ≠ [] ∧
      Trie.lexNode s set.names root (lowercase s).data =
        Trie.lexNode s set.names t' [] ∧
      Trie.candidatesAt root (lowercase s).data = Trie.cands t' := by
  obtain ⟨hw, hperm⟩ := Trie.build_props set.entries root hb
  have hstrip : List.Perm (Trie.stripPre (lowercase s).data (Trie.keys root))
      ((Trie.extending set.entries (lowercase s).data).map
        (fun e => (e.1.data.drop (lowercase s).data.length, e))) := by
    have h2 := Trie.stripPre_perm (lowercase s).data _ _ hperm
    rw [Trie.stripPre_entries] at h2
    exact h2
  obtain ⟨hd1, hd2⟩ := Trie.descend_strip (lowercase s).data root hw
  rcases hdes : Trie.descend root (lowercase s).data with _ | t'
  · exfalso
    have h0 := hd1 hdes
    rw [h0] at hstrip
    have h1 := List.Perm.eq_nil hstrip.symm
    exact hne (List.map_eq_nil_iff.1 h1)
  · obtain ⟨hk, hw'⟩ := hd2 t' hdes
    have hkp : List.Perm (Trie.keys t')
        ((Trie.extending set.entries (lowercase s).data).map
          (fun e => (e.1.data.drop (lowercase s).data.length, e))) := by
      rw [hk]
      exact hstrip
    have hcne : Trie.cands t' ≠ [] := by
      intro h0
      have hkeys : Trie.keys t' = [] := Trie.keys_nil_of_cands_nil t' h0
      rw [hkeys] at hkp
      have h1 := List.Perm.eq_nil hkp.symm
      exact hne (List.map_eq_nil_iff.1 h1)
    refine ⟨t', rfl, hkp, hcne,
      (Trie.lexNode_descend s set.names (lowercase s).data root).2 t' hdes, ?_⟩
    rw [Trie.candidatesAt_eq, hdes]

/-- Composite of the trie correctness stack, failure side: if no entry
identifier extends the lowercased input, identifier parsing is NoMatch. -/
theorem parseId_noreach (set : SetSpec) (root : TrieParts Nat)
    (hb : set.buildTrie = .ok root) (s : String)
    (h : Trie.extending set.entries (lowercase s).data = []) :
    set.parseId root s = .error (.noMatch s set.names) := by
  obtain ⟨hw, hperm⟩ := Trie.build_props set.entries root hb
  have hstrip : List.Perm (Trie.stripPre (lowercase s).data (Trie.keys root))
      ((Trie.extending set.entries (lowercase s).data).map
        (fun e => (e.1.data.drop (lowercase s).data.length, e))) := by
    have h2 := Trie.stripPre_perm (lowercase s).data _ _ hperm
    rw [Trie.stripPre_entries] at h2
    exact h2
  rw [h, List.map_nil] at hstrip
  have hnil : Trie.stripPre (lowercase s).data (Trie.keys root) = [] :=
    List.Perm.eq_nil hstrip
  obtain ⟨hd1, hd2⟩ := Trie.descend_strip (lowercase s).data root hw
  show Trie.lexNode s set.names root (lowercase s).data = _
  rcases hdes : Trie.descend root (lowercase s).data with _ | t'
  · rw [(Trie.lexNode_descend s set.names (lowercase s).data root).1 hdes]
  · obtain ⟨hk, hw'⟩ := hd2 t' hdes
    rw [(Trie.lexNode_descend s set.names (lowercase s).data root).2 t' hdes]
    have hkeys : Trie.keys t' = [] := by rw [hk, hnil]
    have hcands : Trie.cands t' = [] := by
      rcases hcc : Trie.cands t' with _ | ⟨e, r⟩
      · rfl
      · obtain ⟨kk, hkk⟩ := Trie.cands_sub_keys t' e
          (by rw [hcc]; exact List.mem_cons_self _ _)
        rw [hkeys] at hkk
        exact absurd hkk (List.not_mem_nil _)
    exact Trie.lexNode_nil_noMatch s set.names t' hcands

/-- C2: abbreviation support of identifier parsing.  For every command set
whose trie builds and every input string: (1) if every entry identifier
extending the lowercased input belongs to the same command (and at least one
does), lookup succeeds with that command; (2) if identifiers of two distinct
commands extend the input and the ambiguity-resolution predicate fails over
the candidates at the reached node, lookup returns Ambiguous carrying the
candidate name list and the original input; (3) if no identifier extends the
input (in particular when some character has no trie child), lookup returns
NoMatch with the input and all valid names.  In particular parsing "de"
against a set whose only matching id is "deploy" resolves to it, and against
a set declaring both "deploy" and "delete" yields
Ambiguous(["deploy", "delete"], "de"). -/
theorem id_abbreviation (set : SetSpec) (root : TrieParts Nat)
    (hb : set.buildTrie = .ok root) (s : String) :
    (∀ k : Nat, Trie.extending set.entries (lowercase s).data ≠ [] →
      (∀ e ∈ Trie.extending set.entries (lowercase s).data, e.2 = k) →
      set.parseId root s = .ok k) ∧
    ((∃ e1 ∈ Trie.extending set.entries (lowercase s).data,
      ∃ e2 ∈ Trie.extending set.entries (lowercase s).data, e1.2 ≠ e2.2) →
      Trie.resolveAmbiguous (Trie.candidatesAt root (lowercase s).data) =
        Option.none →
      set.parseId root s =
        .error (.ambiguous
          ((Trie.candidatesAt root (lowercase s).data).map (fun e => e.1)) s)) ∧
    (Trie.extending set.entries (lowercase s).data = [] →
      set.parseId root s = .error (.noMatch s set.names)) ∧
    SetSpec.parseId deploySet deployRoot "de" = .ok 0 ∧
    SetSpec.parseId deployDeleteSet deployDeleteRoot "de" =
      .error (.ambiguous ["deploy", "delete"] "de") := by
  refine ⟨?_, ?_, ?_, ?_, ?_⟩
  · intro k hne hall
    obtain ⟨t', hdes, hkp, hcne, hlex, hcand⟩ := parseId_reach set root hb s hne
    have hall2 : ∀ e ∈ Trie.cands t', e.2 = k := by
      intro e he
      obtain ⟨kk, hkk⟩ := Trie.cands_sub_keys t' e he
      have hm := (hkp.mem_iff).1 hkk
      obtain ⟨e2, he2, heq⟩ := List.mem_map.1 hm
      have h5 : e2 = e := congrArg Prod.snd heq
      exact h5 ▸ hall e2 he2
    show Trie.lexNode s set.names root (lowercase s).data = _
    rw [hlex]
    exact Trie.lexNode_nil_ok s set.names t' k hcne hall2
  · intro hdist hres
    obtain ⟨e1, he1, e2, he2, hne12⟩ := hdist
    have hne : Trie.extending set.entries (lowercase s).data ≠ [] := by
      intro h0
      rw [h0] at he1
      exact absurd he1 (List.not_mem_nil e1)
    obtain ⟨t', hdes, hkp, hcne, hlex, hcand⟩ := parseId_reach set root hb s hne
    rw [hcand] at hres
    show Trie.lexNode s set.names root (lowercase s).data = _
    rw [hlex, hcand]
    rcases hc : Trie.cands t' with _ | ⟨⟨n1, p1⟩, rest⟩
    · exact absurd hc hcne
    rcases rest with _ | ⟨⟨n2, p2⟩, rest2⟩
    · exfalso
      rw [hc, Trie.resolveAmbiguous_cons] at hres
      simp at hres
    · exact hc ▸ Trie.lexNode_nil_ambiguous s set.names t' n1 n2 p1 p2 rest2 hc
        (hc ▸ hres)
  · intro h
    exact parseId_noreach set root hb s h
  · rfl
  · rfl

/-- C2 witness: the deploy set builds, "de" extends to exactly the deploy
entry, and lookup of "de" resolves to command 0. -/
theorem id_abbreviation_witness :
    Trie.extending (SetSpec.entries deploySet) (lowercase "de").data ≠ [] ∧
    SetSpec.buildTrie deploySet = .ok deployRoot ∧
    SetSpec.parseId deploySet deployRoot "de" = .ok 0 :=
  ⟨by decide, rfl,
    (id_abbreviation deploySet deployRoot rfl "de").1 0 (by decide) (by decide)⟩

/-- C4 counterexample: in dePrefixSet the identifiers "de" (command 0) and
"deploy" (command 1) both extend the input "de", so two distinct payloads
are reachable beneath the node where the input is exhausted and the claimed
aggregated-payload rule demands Ambiguous; the lexer instead returns the
node's own payload, command 0. -/
theorem id_aggregated_payload_counterexample :
    SetSpec.parseId dePrefixSet dePrefixRoot "de" = .ok 0 ∧
    ("de", 0) ∈ Trie.extending (SetSpec.entries dePrefixSet) (lowercase "de").data ∧
    ("deploy", 1) ∈
      Trie.extending (SetSpec.entries dePrefixSet) (lowercase "de").data ∧
    (0 : Nat) ≠ 1 :=
  ⟨rfl, by decide, by decide, by decide⟩

/-- C4 (amended): the aggregated-payload rule is overridden by an exact
match.  Whenever the lowercased input is itself a declared (lowercased)
identifier of the set, identifier lookup succeeds with that entry's command,
regardless of how many distinct payloads are reachable beneath the reached
node: a node holding its own payload hides its subtree (trie.rs,
From〚TrieNodeParts〛 keeps only the node payload when present). -/
theorem id_exact_match_wins (set : SetSpec) (root : TrieParts Nat)
    (hb : set.buildTrie = .ok root) (s : String) (e : String × Nat)
    (he : e ∈ set.entries) (hx : e.1.data = (lowercase s).data) :
    set.parseId root s = .ok e.2 := by
  have hext : e ∈ Trie.extending set.entries (lowercase s).data := by
    rw [Trie.extending, List.mem_filter]
    refine ⟨he, ?_⟩
    show (lowercase s).data.isPrefixOf e.1.data = true
    rw [hx]
    exact Trie.isPrefixOf_self _
  have hne : Trie.extending set.entries (lowercase s).data ≠ [] := by
    intro h0
    rw [h0] at hext
    exact absurd hext (List.not_mem_nil e)
  obtain ⟨t', hdes, hkp, hcne, hlex, hcand⟩ := parseId_reach set root hb s hne
  obtain ⟨p, cs⟩ := t'
  have hmem0 : (([] : List Char), e) ∈ Trie.keys (TrieParts.mk p cs) := by
    refine (hkp.mem_iff).2 ?_
    have hf : ((e.1.data.drop (lowercase s).data.length, e) :
        List Char × (String × Nat)) = ([], e) := by
      rw [hx, List.drop_length]
    rw [← hf]
    exact List.mem_map.2 ⟨e, hext, rfl⟩
  have hp : p = Option.some e := Trie.payload_of_nil_key p cs e hmem0
  subst hp
  show Trie.lexNode s set.names root (lowercase s).data = _
  rw [hlex]
  refine Trie.lexNode_nil_ok s set.names _ e.2 ?_ ?_
  · rw [Trie.cands_some]
    simp
  · intro x hx2
    rw [Trie.cands_some] at hx2
    have h4 : x = e := List.mem_singleton.1 hx2
    rw [h4]

/-- C4 witness: in dePrefixSet the entry ("de", 0) is an exact match for the
input "de", and lookup indeed returns command 0. -/
theorem id_exact_match_wins_witness :
    SetSpec.buildTrie dePrefixSet = .ok dePrefixRoot ∧
    ("de", 0) ∈ SetSpec.entries dePrefixSet ∧
    SetSpec.parseId dePrefixSet dePrefixRoot "de" = .ok 0 :=
  ⟨rfl, by decide,
    id_exact_match_wins dePrefixSet dePrefixRoot rfl "de" ("de", 0) (by decide) rfl⟩

end Docbot